import Mathlib

/-!
Verification development for the `llm_json` JSON-repair library.

The definitions below are a shallow embedding of `src/lib.rs` (the
`JsonRepairParser` recursive-descent repair engine and the `repair_json` /
`loads` entry points).  The input `Vec<char>` is modelled as `List Char`,
the growing output `String` as `List Char`, and the cursor as a `Nat`
index.  The mutually recursive functions `parse_value` / `parse_object` /
`parse_array` are given an explicit fuel parameter (the Rust code can loop
forever, which the fuel makes observable: a `none` result for every fuel
is genuine divergence); all other loops in the source always advance the
cursor and are embedded as total functions.

The strict RFC 8259 parser and compact serialiser of the external
`serde_json` crate (used by `repair_json` for its fast path and its
post-repair validation) are not part of this repository's sources; they
are modelled from the spec ("a conforming JSON parser", "canonical output
format: RFC 8259 ... compact") as `serde_from_str` / `serde_to_string`
below.
-/

namespace LlmJson

/-- Single-quote character, written via its code point. -/
def squote : Char := Char.ofNat 39

/-- Backslash character. -/
def bslash : Char := Char.ofNat 92

/-- Model of Rust `char::is_whitespace`: the Unicode `White_Space`
property, an explicit list of 25 code points (compared as scalar
values). -/
def rust_is_whitespace (c : Char) : Bool :=
  c.toNat = 0x09 || c.toNat = 0x0A || c.toNat = 0x0B || c.toNat = 0x0C || c.toNat = 0x0D ||
  c.toNat = 0x20 || c.toNat = 0x85 || c.toNat = 0xA0 || c.toNat = 0x1680 ||
  (0x2000 ≤ c.toNat && c.toNat ≤ 0x200A) ||
  c.toNat = 0x2028 || c.toNat = 0x2029 || c.toNat = 0x202F || c.toNat = 0x205F ||
  c.toNat = 0x3000

/-- Model of Rust `char::is_ascii`. -/
def rust_is_ascii (c : Char) : Bool := c.toNat ≤ 0x7F

/-- Modelled from the spec: Rust `char::is_alphabetic` is the Unicode
`Alphabetic` property, whose full table is external to this repository.
It is modelled exactly on ASCII and by principal letter ranges beyond
ASCII; no claim settled in this file depends on the non-ASCII cases (the
branches guarded by it all recover to the same string emission). -/
def rust_is_alphabetic (c : Char) : Bool :=
  (0x41 ≤ c.toNat && c.toNat ≤ 0x5A) || (0x61 ≤ c.toNat && c.toNat ≤ 0x7A) ||
  (0xC0 ≤ c.toNat && c.toNat ≤ 0x2AF && c.toNat ≠ 0xD7 && c.toNat ≠ 0xF7) ||
  (0x370 ≤ c.toNat && c.toNat ≤ 0x3FF && c.toNat ≠ 0x37E) ||
  (0x400 ≤ c.toNat && c.toNat ≤ 0x4FF) ||
  (0x531 ≤ c.toNat && c.toNat ≤ 0x58F) ||
  (0x5D0 ≤ c.toNat && c.toNat ≤ 0x5EA) ||
  (0x620 ≤ c.toNat && c.toNat ≤ 0x64A) ||
  (0x4E00 ≤ c.toNat && c.toNat ≤ 0x9FFF) ||
  (0x3040 ≤ c.toNat && c.toNat ≤ 0x30FF && c.toNat ≠ 0x3097 && c.toNat ≠ 0x3098) ||
  (0xAC00 ≤ c.toNat && c.toNat ≤ 0xD7A3)

/-- Rust `char::is_ascii_digit`, as a scalar-value range. -/
def rust_is_ascii_digit (c : Char) : Bool := 0x30 ≤ c.toNat && c.toNat ≤ 0x39

/-- Model of Rust `char::to_lowercase` restricted to a single output
scalar: ASCII `A`..`Z` map down by 32.  The only non-ASCII scalar whose
Unicode lowercase is a single ASCII letter is U+212A (KELVIN SIGN → `k`),
and `k` occurs in none of the literals `parse_literal` compares against,
so identity on the rest is faithful for every comparison made here. -/
def rust_to_lowercase (c : Char) : Char := c.toLower

/-- Configuration options for JSON repair (`RepairOptions` in `lib.rs`). -/
structure RepairOptions where
  skip_json_loads : Bool
  return_objects : Bool
  ensure_ascii : Bool
  stream_stable : Bool
deriving DecidableEq, Repr

/-- `RepairOptions::default()`. -/
def RepairOptions.default : RepairOptions :=
  { skip_json_loads := false, return_objects := false,
    ensure_ascii := true, stream_stable := false }

/-- Errors that can occur during JSON repair (`JsonRepairError`). -/
inductive JsonRepairError where
  | unrepairableJson
  | ioError
  | serdeError
  | utf8Error
deriving DecidableEq, Repr

/-- Internal parser state for tracking context (`ParseState`). -/
inductive ParseState where
  | Root
  | Object
  | Array
deriving DecidableEq, Repr

/-- The mutable fields of `JsonRepairParser`: input characters, cursor,
output buffer and state stack.  The (read-only) options are passed to the
parsing functions as a separate argument. -/
structure ParserSt where
  input : List Char
  pos : Nat
  output : List Char
  state_stack : List ParseState
deriving DecidableEq, Repr

/-- `JsonRepairParser::current_char`. -/
def current_char (s : ParserSt) : Option Char := s.input[s.pos]?

/-- `JsonRepairParser::peek_char`. -/
def peek_char (s : ParserSt) (offset : Nat) : Option Char := s.input[s.pos + offset]?

/-- `JsonRepairParser::advance` (the state part; the returned character is
`current_char` of the argument). -/
def advanceS (s : ParserSt) : ParserSt :=
  if (current_char s).isSome then { s with pos := s.pos + 1 } else s

/-- `JsonRepairParser::current_state`. -/
def current_state (s : ParserSt) : ParseState :=
  (s.state_stack.getLast?).getD ParseState.Root

/-- `JsonRepairParser::push_state` (a `Vec` push appends at the end). -/
def push_state (s : ParserSt) (st : ParseState) : ParserSt :=
  { s with state_stack := s.state_stack ++ [st] }

/-- `JsonRepairParser::pop_state` (the state part; pops only when more
than one element remains). -/
def pop_state (s : ParserSt) : ParserSt :=
  if 1 < s.state_stack.length then
    { s with state_stack := s.state_stack.dropLast }
  else s

/-- `JsonRepairParser::append_char`. -/
def append_char (s : ParserSt) (c : Char) : ParserSt :=
  { s with output := s.output ++ [c] }

/-- `JsonRepairParser::append_str`. -/
def append_str (s : ParserSt) (t : List Char) : ParserSt :=
  { s with output := s.output ++ t }

@[simp] theorem advanceS_input (s : ParserSt) : (advanceS s).input = s.input := by
  simp [advanceS]; split <;> rfl

@[simp] theorem append_char_input (s : ParserSt) (c : Char) :
    (append_char s c).input = s.input := rfl

@[simp] theorem append_str_input (s : ParserSt) (t : List Char) :
    (append_str s t).input = s.input := rfl

@[simp] theorem append_char_pos (s : ParserSt) (c : Char) :
    (append_char s c).pos = s.pos := rfl

@[simp] theorem append_str_pos (s : ParserSt) (t : List Char) :
    (append_str s t).pos = s.pos := rfl

@[simp] theorem push_state_input (s : ParserSt) (st : ParseState) :
    (push_state s st).input = s.input := rfl

@[simp] theorem push_state_pos (s : ParserSt) (st : ParseState) :
    (push_state s st).pos = s.pos := rfl

theorem pos_lt_of_current_char {s : ParserSt} {c : Char}
    (h : current_char s = some c) : s.pos < s.input.length := by
  by_contra hge
  have : s.input[s.pos]? = none := List.getElem?_eq_none (by omega)
  rw [current_char, this] at h
  exact Option.noConfusion h

theorem advanceS_pos_of_some {s : ParserSt} {c : Char}
    (h : current_char s = some c) : (advanceS s).pos = s.pos + 1 := by
  simp [advanceS, h]

/-- Measure for the cursor-advancing loops: the number of characters left
at the cursor.  Every loop of the source advances the cursor at least
once per iteration, so this bounds the iteration count; the loops below
are written structurally over this bound (passed by each wrapper), which
keeps them kernel-reducible. -/
def msr (s : ParserSt) : Nat := s.input.length - s.pos

/-- Loop of `JsonRepairParser::skip_whitespace`. -/
def skip_whitespace_aux : Nat → ParserSt → ParserSt
  | 0, s => s
  | n+1, s =>
    match current_char s with
    | some ch =>
      if rust_is_whitespace ch then skip_whitespace_aux n (advanceS s) else s
    | none => s

/-- `JsonRepairParser::skip_whitespace`. -/
def skip_whitespace (s : ParserSt) : ParserSt := skip_whitespace_aux (msr s) s

/-- The line-comment loop of `skip_comments`: `while let Some(ch) =
self.advance() { if ch == the-newline { break } }`. -/
def skip_line_comment_aux : Nat → ParserSt → ParserSt
  | 0, s => s
  | n+1, s =>
    match current_char s with
    | some ch =>
      if ch = '\n' then advanceS s else skip_line_comment_aux n (advanceS s)
    | none => s

/-- The block-comment loop of `skip_comments`: consume until `*` followed
by `/` (consuming both) or end of input. -/
def skip_block_comment_aux : Nat → ParserSt → ParserSt
  | 0, s => s
  | n+1, s =>
    match current_char s with
    | some ch =>
      let s1 := advanceS s
      if ch = '*' && (current_char s1 = some '/' : Bool) then advanceS s1
      else skip_block_comment_aux n s1
    | none => s

/-- `JsonRepairParser::skip_comments`. -/
def skip_comments (s : ParserSt) : ParserSt :=
  if current_char s = some '/' ∧ peek_char s 1 = some '/' then
    skip_line_comment_aux (msr s) s
  else if current_char s = some '/' ∧ peek_char s 1 = some '*' then
    skip_block_comment_aux (msr s) (advanceS (advanceS s))
  else s

/-- Lowercase-hex digit for `n < 16` (a digit of `format!("{:04x}")`). -/
def hexDigit (n : Nat) : Char :=
  if n < 10 then Char.ofNat (48 + n) else Char.ofNat (87 + n)

/-- Division bound for `hexChars`. -/
def hexCharsAux : Nat → Nat → List Char
  | 0, _ => []
  | _+1, 0 => []
  | fuel+1, n+1 => hexCharsAux fuel ((n+1) / 16) ++ [hexDigit ((n+1) % 16)]

/-- Hex representation of `n`, most significant digit first, no padding
(empty for `0`; callers pad). -/
def hexChars (n : Nat) : List Char := hexCharsAux n n

/-- Model of Rust `format!("\u{:04x}", ch as u32)`: lowercase hex,
zero-padded to a minimum width of four digits (wider for code points that
need more digits — no UTF-16 surrogate pairs are formed). -/
def u_escape (c : Char) : List Char :=
  let ds := hexChars c.toNat
  let ds := if ds.length < 4 then List.replicate (4 - ds.length) '0' ++ ds else ds
  bslash :: 'u' :: ds

/-- The non-delimiter character emission shared by `parse_string` and
`parse_unquoted_string`: emit the character, or its `\uXXXX` escape when
`ensure_ascii` is set and the character is not ASCII. -/
def emit_char (o : RepairOptions) (s : ParserSt) (ch : Char) : ParserSt :=
  if !o.ensure_ascii || rust_is_ascii ch then append_char s ch
  else append_str s (u_escape ch)

@[simp] theorem emit_char_input (o : RepairOptions) (s : ParserSt) (ch : Char) :
    (emit_char o s ch).input = s.input := by
  simp [emit_char]; split <;> rfl

@[simp] theorem emit_char_pos (o : RepairOptions) (s : ParserSt) (ch : Char) :
    (emit_char o s ch).pos = s.pos := by
  simp [emit_char]; split <;> rfl

/-- The trailing-whitespace look-ahead inside `parse_unquoted_string`:
scan from `i`; a structural delimiter before any other non-whitespace
character means the whitespace run is trailing. -/
def found_delimiter_aux (input : List Char) : Nat → Nat → Bool
  | 0, _ => false
  | n+1, i =>
    match input[i]? with
    | none => false
    | some c =>
      if c = ',' || c = '}' || c = ']' || c = ':' then true
      else if !rust_is_whitespace c then false
      else found_delimiter_aux input n (i + 1)

/-- The look-ahead of `parse_unquoted_string` from index `i`. -/
def found_delimiter (input : List Char) (i : Nat) : Bool :=
  found_delimiter_aux input (input.length + 1 - i) i

/-- Loop of `JsonRepairParser::parse_unquoted_string`. -/
def parse_unquoted_string_aux (o : RepairOptions) : Nat → ParserSt → ParserSt
  | 0, s => s
  | n+1, s =>
    match current_char s with
    | none => append_char s '"'
    | some ch =>
      if ch = ',' || ch = '}' || ch = ']' || ch = ':' then append_char s '"'
      else if ch = '"' then
        parse_unquoted_string_aux o n (advanceS (append_str s [bslash, '"']))
      else if ch = bslash then
        parse_unquoted_string_aux o n (advanceS (append_str s [bslash, bslash]))
      else if rust_is_whitespace ch then
        if found_delimiter s.input (s.pos + 1) then append_char s '"'
        else parse_unquoted_string_aux o n (advanceS (append_char s ch))
      else
        parse_unquoted_string_aux o n (advanceS (emit_char o s ch))

/-- `JsonRepairParser::parse_unquoted_string`. -/
def parse_unquoted_string (o : RepairOptions) (s : ParserSt) : ParserSt :=
  parse_unquoted_string_aux o (msr s + 1) s

/-- The scanning loop of `parse_string` after the opening quote has been
consumed (`quote` is the delimiter that closes the string). -/
def parse_string_loop_aux (o : RepairOptions) (quote : Char) : Nat → ParserSt → ParserSt
  | 0, s => s
  | n+1, s =>
    match current_char s with
    | none => append_char s '"'
    | some ch =>
      if ch = quote then append_char (advanceS s) '"'
      else if ch = bslash then
        let s1 := advanceS (append_char s ch)
        match current_char s1 with
        | some escaped => parse_string_loop_aux o quote n (advanceS (append_char s1 escaped))
        | none => parse_string_loop_aux o quote n s1
      else if ch = '"' && quote = squote then
        parse_string_loop_aux o quote n (advanceS (append_str s [bslash, '"']))
      else
        parse_string_loop_aux o quote n (advanceS (emit_char o s ch))

/-- The scanning loop of `parse_string`, entered at the state just past
the opening quote. -/
def parse_string_loop (o : RepairOptions) (quote : Char) (s : ParserSt) : ParserSt :=
  parse_string_loop_aux o quote (msr s + 1) s

/-- `JsonRepairParser::parse_string`. -/
def parse_string (o : RepairOptions) (s : ParserSt) : ParserSt :=
  if current_char s = some '"' then
    parse_string_loop o '"' (advanceS (append_char s '"'))
  else if current_char s = some squote then
    parse_string_loop o squote (advanceS (append_char s '"'))
  else
    parse_unquoted_string o (append_char s '"')

/-- A digit-run loop of `parse_number`: append and advance while the
current character is an ASCII digit. -/
def consume_digits_aux : Nat → ParserSt → ParserSt
  | 0, s => s
  | n+1, s =>
    match current_char s with
    | none => s
    | some ch =>
      if rust_is_ascii_digit ch then consume_digits_aux n (advanceS (append_char s ch))
      else s

/-- The digit-run loop of `parse_number`. -/
def consume_digits (s : ParserSt) : ParserSt := consume_digits_aux (msr s + 1) s

/-- The option-free scanning phases of `parse_number`: optional sign,
integer part, fractional part with auto-zero, exponent with auto-zero. -/
def parse_number_scan (s : ParserSt) : ParserSt :=
  let s := if current_char s = some '-' then advanceS (append_char s '-') else s
  let s :=
    if current_char s = some '0' then advanceS (append_char s '0')
    else consume_digits s
  let s :=
    if current_char s = some '.' then
      let s := advanceS (append_char s '.')
      let before_digits := s.pos
      let s := consume_digits s
      if s.pos = before_digits then append_char s '0' else s
    else s
  if current_char s = some 'e' ∨ current_char s = some 'E' then
    let s := advanceS (append_char s 'e')
    let s :=
      match current_char s with
      | some c => if c = '+' ∨ c = '-' then advanceS (append_char s c) else s
      | none => s
    let before_exp_digits := s.pos
    let s := consume_digits s
    if s.pos = before_exp_digits then append_char s '0' else s
  else s

/-- `JsonRepairParser::parse_number`.  The final validity check keeps the
source's exact truncation expression `output.len() - (self.pos -
start_pos)` — evaluated after `self.pos` has already been reset to
`start_pos`, so it truncates by zero. -/
def parse_number (o : RepairOptions) (s : ParserSt) : ParserSt :=
  let start_pos := s.pos
  let s1 := parse_number_scan s
  if s1.pos = start_pos ∨ (s1.pos = start_pos + 1 ∧ s1.input[start_pos]? = some '-') then
    let s2 := { s1 with pos := start_pos }
    let s3 := { s2 with output := s2.output.take (s2.output.length - (s2.pos - start_pos)) }
    parse_unquoted_string o (append_char s3 '"')
  else s1

/-- The collection loop of `parse_literal`: advance past non-structural,
non-whitespace characters, collecting them (without emitting). -/
def literal_run_aux : Nat → ParserSt → List Char → ParserSt × List Char
  | 0, s, acc => (s, acc)
  | n+1, s, acc =>
    match current_char s with
    | none => (s, acc)
    | some ch =>
      if ch = ',' || ch = '}' || ch = ']' || ch = ':' || rust_is_whitespace ch then (s, acc)
      else literal_run_aux n (advanceS s) (acc ++ [ch])

/-- The collection loop of `parse_literal`. -/
def literal_run (s : ParserSt) (acc : List Char) : ParserSt × List Char :=
  literal_run_aux (msr s + 1) s acc

/-- `JsonRepairParser::parse_literal`. -/
def parse_literal (o : RepairOptions) (s : ParserSt) : ParserSt :=
  let start_pos := s.pos
  let r := literal_run s []
  let s1 := r.1
  let lower := r.2.map rust_to_lowercase
  if lower = "true".data then append_str s1 "true".data
  else if lower = "false".data then append_str s1 "false".data
  else if lower = "null".data ∨ lower = "none".data ∨ lower = "undefined".data then
    append_str s1 "null".data
  else
    parse_unquoted_string o (append_char { s1 with pos := start_pos } '"')

mutual

/-- `JsonRepairParser::parse_value`.  The fuel argument makes the
potentially divergent mutual recursion with the object/array loops total;
`none` means the step budget was exhausted. -/
def parse_value (o : RepairOptions) : Nat → ParserSt → Option ParserSt
  | 0, _ => none
  | fuel+1, s =>
    let s := skip_whitespace s
    let s := skip_comments s
    let s := skip_whitespace s
    match current_char s with
    | none =>
      some (match current_state s with
        | ParseState.Array => append_str s "null".data
        | _ => append_str s "null".data)
    | some ch =>
      if ch = '"' ∨ ch = squote then some (parse_string o s)
      else if rust_is_ascii_digit ch ∨ ch = '-' then some (parse_number o s)
      else if ch = '{' then
        -- entry of `parse_object`: emit and consume `{`, push, loop, pop
        match parse_object_loop o fuel
            (push_state (advanceS (append_char s '{')) ParseState.Object) true false with
        | some s1 => some (pop_state s1)
        | none => none
      else if ch = '[' then
        -- entry of `parse_array`: emit and consume `[`, push, loop, pop
        match parse_array_loop o fuel
            (push_state (advanceS (append_char s '[')) ParseState.Array) false with
        | some s1 => some (pop_state s1)
        | none => none
      else if rust_is_alphabetic ch then some (parse_literal o s)
      else some (parse_unquoted_string o (append_char s '"'))

/-- The member loop of `parse_object`, with its two mutable flags
`expecting_key` and `needs_comma`. -/
def parse_object_loop (o : RepairOptions) :
    Nat → ParserSt → Bool → Bool → Option ParserSt
  | 0, _, _, _ => none
  | fuel+1, s, expecting_key, needs_comma =>
    let s := skip_whitespace s
    let s := skip_comments s
    let s := skip_whitespace s
    match current_char s with
    | none => some (append_char s '}')
    | some ch =>
      if ch = '}' then some (append_char (advanceS s) '}')
      else if ch = ',' then
        let s := advanceS s
        let s := skip_whitespace s
        if current_char s = some '}' ∨ current_char s = none then
          parse_object_loop o fuel s expecting_key needs_comma
        else if expecting_key = false then
          parse_object_loop o fuel (append_char s ',') true false
        else
          parse_object_loop o fuel s expecting_key needs_comma
      else
        let s := if needs_comma then append_char s ',' else s
        if expecting_key then
          let s :=
            if current_char s = some '"' ∨ current_char s = some squote then
              parse_string o s
            else
              parse_unquoted_string o (append_char s '"')
          let s := skip_whitespace s
          let s :=
            if current_char s = some ':' then append_char (advanceS s) ':'
            else append_char s ':'
          match parse_value o fuel s with
          | none => none
          | some s =>
            let s := skip_whitespace s
            let s :=
              if current_char s = some '"' ∨ current_char s = some squote ∨
                  ((current_char s).map rust_is_alphabetic).getD false = true then
                append_char s ','
              else s
            parse_object_loop o fuel s false true
        else
          let s := append_str s "\"unknown\":".data
          match parse_value o fuel s with
          | none => none
          | some s => parse_object_loop o fuel s false true

/-- The element loop of `parse_array`, with its mutable `needs_comma`
flag. -/
def parse_array_loop (o : RepairOptions) : Nat → ParserSt → Bool → Option ParserSt
  | 0, _, _ => none
  | fuel+1, s, needs_comma =>
    let s := skip_whitespace s
    let s := skip_comments s
    let s := skip_whitespace s
    match current_char s with
    | none => some (append_char s ']')
    | some ch =>
      if ch = ']' then some (append_char (advanceS s) ']')
      else if ch = ',' then
        let s := advanceS s
        let s := skip_whitespace s
        if current_char s = some ']' ∨ current_char s = none then
          parse_array_loop o fuel s needs_comma
        else if needs_comma then
          parse_array_loop o fuel (append_char s ',') false
        else
          parse_array_loop o fuel s needs_comma
      else
        let s := if needs_comma then append_char s ',' else s
        match parse_value o fuel s with
        | none => none
        | some s => parse_array_loop o fuel s true

end

/-- `JsonRepairParser::parse_object` (entry: emit `{`, consume it, push
the Object context, run the member loop, pop).  `parse_value` inlines
this body so that the mutual recursion is structural in the fuel. -/
def parse_object (o : RepairOptions) (fuel : Nat) (s : ParserSt) : Option ParserSt :=
  match parse_object_loop o fuel
      (push_state (advanceS (append_char s '{')) ParseState.Object) true false with
  | some s1 => some (pop_state s1)
  | none => none

/-- `JsonRepairParser::parse_array` (entry: emit `[`, consume it, push
the Array context, run the element loop, pop).  `parse_value` inlines
this body so that the mutual recursion is structural in the fuel. -/
def parse_array (o : RepairOptions) (fuel : Nat) (s : ParserSt) : Option ParserSt :=
  match parse_array_loop o fuel
      (push_state (advanceS (append_char s '[')) ParseState.Array) false with
  | some s1 => some (pop_state s1)
  | none => none

/-- Character-list version of Rust `str::find` for a pattern: index of
the first position where the pattern is a leading run of the rest.  Byte
indices of the source coincide order- and slice-wise with these character
indices because the patterns searched for are ASCII. -/
def starts_with_chars : List Char → List Char → Bool
  | [], _ => true
  | _ :: _, [] => false
  | p :: ps, x :: xs => p = x && starts_with_chars ps xs

/-- Scan for the first occurrence of `pat` starting at index `i`. -/
def find_from (pat : List Char) : List Char → Nat → Option Nat
  | [], i => if starts_with_chars pat [] then some i else none
  | x :: t, i =>
    if starts_with_chars pat (x :: t) then some i else find_from pat t (i + 1)

/-- Scan for the last occurrence of `pat` (Rust `str::rfind`), carrying
the best match so far. -/
def rfind_from (pat : List Char) : List Char → Nat → Option Nat → Option Nat
  | [], i, best => if starts_with_chars pat [] then some i else best
  | x :: t, i, best =>
    rfind_from pat t (i + 1)
      (if starts_with_chars pat (x :: t) then some i else best)

/-- The leading-prose loop of `JsonRepairParser::parse`: advance while
the current character is not a plausible JSON start marker. -/
def skip_to_marker_aux : Nat → ParserSt → ParserSt
  | 0, s => s
  | n+1, s =>
    match current_char s with
    | none => s
    | some ch =>
      if ch = '{' ∨ ch = '[' ∨ ch = '"' ∨ ch = squote ∨ ch = '-' ∨
          rust_is_ascii_digit ch ∨ rust_is_alphabetic ch then s
      else skip_to_marker_aux n (advanceS s)

/-- The leading-prose loop of `JsonRepairParser::parse`. -/
def skip_to_marker (s : ParserSt) : ParserSt := skip_to_marker_aux (msr s) s

/-- UTF-8 byte length of a character sequence — the length of the
`String` that `parse` collects the remainder into. -/
def utf8_len : List Char → Nat
  | [] => 0
  | c :: t => c.utf8Size + utf8_len t

/-- Rust `str::find(char)` on the collected remainder: the BYTE offset
of the first occurrence of `target` in its UTF-8 rendering, not a
character index. -/
def byte_find (target : Char) : List Char → Option Nat
  | [] => none
  | c :: t =>
    if c = target then some 0
    else
      match byte_find target t with
      | some n => some (c.utf8Size + n)
      | none => none

/-- The explanatory-text jump of `JsonRepairParser::parse` (lines
589-593): `remaining.find(the-open-brace).or_else(|| remaining.find(the-open-bracket))`.
`remaining` is a `String`, so `find` returns a BYTE offset, which the
caller adds to the character-indexed cursor `self.pos`. -/
def json_start_jump (remaining : List Char) : Option Nat :=
  (byte_find '{' remaining).orElse (fun _ => byte_find '[' remaining)

/-- The fuel-free preamble of `JsonRepairParser::parse`: markdown-fence
extraction, whitespace and prose skipping, and the jump to the first
structural opener. -/
def parse_preamble (s : ParserSt) : ParserSt :=
  let s :=
    match find_from "```json".data s.input 0 with
    | some start =>
      (match rfind_from "```".data s.input 0 none with
       | some e =>
         if start + 7 < e then
           { s with input := (s.input.drop (start + 7)).take (e - (start + 7)), pos := 0 }
         else s
       | none => s)
    | none => s
  let s := skip_whitespace s
  let s := skip_to_marker s
  match json_start_jump (s.input.drop s.pos) with
  | some json_start => { s with pos := s.pos + json_start }
  | none => s

/-- `JsonRepairParser::parse`: the preamble, then one value, then a
trailing whitespace skip. -/
def parse_top (o : RepairOptions) (fuel : Nat) (s : ParserSt) : Option ParserSt :=
  match parse_value o fuel (parse_preamble s) with
  | none => none
  | some s => some (skip_whitespace s)

/-- `JsonRepairParser::new` followed by `parse` and `get_result`: run the
repair engine on a string, returning its output buffer (or `none` if the
fuel ran out — for every fuel, on inputs where the Rust code loops
forever). -/
def run_engine (o : RepairOptions) (fuel : Nat) (json_str : String) : Option String :=
  match parse_top o fuel
      { input := json_str.data, pos := 0, output := [], state_stack := [ParseState.Root] } with
  | some s => some (String.mk s.output)
  | none => none

/-! ### Model of the external strict JSON parser / serialiser

Modelled from the spec: `repair_json` delegates its fast path and its
post-repair validation to a conforming RFC 8259 parser
(`serde_json::from_str::<Value>`) and a compact canonical serialiser
(`serde_json::to_string`), which are external to this repository.  Values
are modelled structurally; objects are sorted key maps with
last-duplicate-wins insertion (serde's `BTreeMap`); number tokens are
kept verbatim (the host's float normalisation is not modelled, nor is its
range check or recursion limit — no claim settled here depends on them).
-/

/-- Modelled from the spec: a `serde_json::Value` tree. -/
inductive Json where
  | null
  | bool (b : Bool)
  | num (tok : List Char)
  | str (s : List Char)
  | arr (elems : List Json)
  | obj (members : List (List Char × Json))

/-- Lexicographic order on keys by Unicode scalar value — the order of
Rust `String`s (bytewise UTF-8 order coincides with scalar order). -/
def key_lt : List Char → List Char → Bool
  | [], [] => false
  | [], _ :: _ => true
  | _ :: _, [] => false
  | a :: xs, b :: ys => a.toNat < b.toNat || (a = b && key_lt xs ys)

/-- Ordered-map insertion with replacement of an equal key (a `BTreeMap`
insert, against the sorted association list). -/
def insert_kv (k : List Char) (v : Json) :
    List (List Char × Json) → List (List Char × Json)
  | [] => [(k, v)]
  | (k1, v1) :: t =>
    if key_lt k k1 then (k, v) :: (k1, v1) :: t
    else if k = k1 then (k, v) :: t
    else (k1, v1) :: insert_kv k v t

/-- Structural whitespace of RFC 8259 (what the strict parser skips),
as scalar values: space, tab, line feed, carriage return. -/
def json_ws (c : Char) : Bool :=
  c.toNat = 0x20 || c.toNat = 0x09 || c.toNat = 0x0A || c.toNat = 0x0D

/-- Skip strict-JSON whitespace. -/
def skip_json_ws (l : List Char) : List Char := l.dropWhile json_ws

/-- Value of one hex digit. -/
def hex_val (c : Char) : Option Nat :=
  if 48 ≤ c.toNat ∧ c.toNat ≤ 57 then some (c.toNat - 48)
  else if 97 ≤ c.toNat ∧ c.toNat ≤ 102 then some (c.toNat - 87)
  else if 65 ≤ c.toNat ∧ c.toNat ≤ 70 then some (c.toNat - 55)
  else none

/-- Strict JSON string body (after the opening quote): plain scalars at
or above U+0020, the short escapes, and `\uXXXX` with mandatory
low-surrogate pairing.  Returns the decoded scalars and the rest of the
input after the closing quote.  Structurally recursive on a bound that
the wrapper sets above the input length (every step consumes input, so
the bound is never exhausted). -/
def parse_json_string_aux : Nat → List Char → Option (List Char × List Char)
  | 0, _ => none
  | _+1, [] => none
  | fu+1, c :: rest =>
    if c = '"' then some ([], rest)
    else if c = bslash then
      match rest with
      | [] => none
      | e :: rest1 =>
        if e = '"' then (parse_json_string_aux fu rest1).map (fun p => ('"' :: p.1, p.2))
        else if e = bslash then (parse_json_string_aux fu rest1).map (fun p => (bslash :: p.1, p.2))
        else if e = '/' then (parse_json_string_aux fu rest1).map (fun p => ('/' :: p.1, p.2))
        else if e = 'b' then (parse_json_string_aux fu rest1).map (fun p => (Char.ofNat 8 :: p.1, p.2))
        else if e = 'f' then (parse_json_string_aux fu rest1).map (fun p => (Char.ofNat 12 :: p.1, p.2))
        else if e = 'n' then (parse_json_string_aux fu rest1).map (fun p => ('\n' :: p.1, p.2))
        else if e = 'r' then (parse_json_string_aux fu rest1).map (fun p => ('\r' :: p.1, p.2))
        else if e = 't' then (parse_json_string_aux fu rest1).map (fun p => ('\t' :: p.1, p.2))
        else if e = 'u' then
          match rest1 with
          | h1 :: h2 :: h3 :: h4 :: rest2 =>
            match hex_val h1, hex_val h2, hex_val h3, hex_val h4 with
            | some a, some b, some c2, some d =>
              let n := ((a * 16 + b) * 16 + c2) * 16 + d
              if 0xD800 ≤ n ∧ n ≤ 0xDBFF then
                match rest2 with
                | e1 :: e2 :: g1 :: g2 :: g3 :: g4 :: rest3 =>
                  if e1 = bslash ∧ e2 = 'u' then
                    match hex_val g1, hex_val g2, hex_val g3, hex_val g4 with
                    | some a2, some b2, some c3, some d2 =>
                      let m := ((a2 * 16 + b2) * 16 + c3) * 16 + d2
                      if 0xDC00 ≤ m ∧ m ≤ 0xDFFF then
                        (parse_json_string_aux fu rest3).map
                          (fun p =>
                            (Char.ofNat (0x10000 + (n - 0xD800) * 0x400 + (m - 0xDC00)) :: p.1,
                             p.2))
                      else none
                    | _, _, _, _ => none
                  else none
                | _ => none
              else if 0xDC00 ≤ n ∧ n ≤ 0xDFFF then none
              else (parse_json_string_aux fu rest2).map (fun p => (Char.ofNat n :: p.1, p.2))
            | _, _, _, _ => none
          | _ => none
        else none
    else if c.toNat < 0x20 then none
    else (parse_json_string_aux fu rest).map (fun p => (c :: p.1, p.2))

/-- Strict JSON string body: wrapper setting the structural bound. -/
def parse_json_string (l : List Char) : Option (List Char × List Char) :=
  parse_json_string_aux (l.length + 1) l

/-- Exponent phase of the strict number grammar. -/
def parse_json_num_exp (acc : List Char) (l : List Char) :
    Option (List Char × List Char) :=
  match l with
  | c :: t =>
    if c = 'e' ∨ c = 'E' then
      let q : List Char × List Char :=
        match t with
        | c2 :: t2 => if c2 = '+' ∨ c2 = '-' then ([c2], t2) else ([], t)
        | [] => ([], t)
      let ds := q.2.takeWhile rust_is_ascii_digit
      if ds.isEmpty then none
      else some (acc ++ [c] ++ q.1 ++ ds, q.2.dropWhile rust_is_ascii_digit)
    else some (acc, l)
  | [] => some (acc, l)

/-- Fraction phase of the strict number grammar. -/
def parse_json_num_frac (acc : List Char) (l : List Char) :
    Option (List Char × List Char) :=
  match l with
  | c :: t =>
    if c = '.' then
      let ds := t.takeWhile rust_is_ascii_digit
      if ds.isEmpty then none
      else parse_json_num_exp (acc ++ ['.'] ++ ds) (t.dropWhile rust_is_ascii_digit)
    else parse_json_num_exp acc l
  | [] => some (acc, l)

/-- Strict RFC 8259 number token: optional `-`, `0` or a run without a
leading zero, optional fraction, optional exponent.  Returns the token
verbatim and the rest. -/
def parse_json_number (l : List Char) : Option (List Char × List Char) :=
  let p : List Char × List Char :=
    match l with
    | c :: t => if c = '-' then (['-'], t) else ([], l)
    | [] => ([], l)
  match h : p.2 with
  | c :: t =>
    if c = '0' then parse_json_num_frac (p.1 ++ ['0']) t
    else if rust_is_ascii_digit c then
      parse_json_num_frac (p.1 ++ (c :: t).takeWhile rust_is_ascii_digit)
        ((c :: t).dropWhile rust_is_ascii_digit)
    else none
  | [] => none

mutual

/-- Strict JSON value (fuelled; the entry point passes more fuel than any
input can consume). -/
def parse_json_value : Nat → List Char → Option (Json × List Char)
  | 0, _ => none
  | fuel+1, l =>
    match l with
    | [] => none
    | c :: t =>
      if c = 'n' then
        match t with
        | 'u' :: 'l' :: 'l' :: r => some (Json.null, r)
        | _ => none
      else if c = 't' then
        match t with
        | 'r' :: 'u' :: 'e' :: r => some (Json.bool true, r)
        | _ => none
      else if c = 'f' then
        match t with
        | 'a' :: 'l' :: 's' :: 'e' :: r => some (Json.bool false, r)
        | _ => none
      else if c = '"' then
        (parse_json_string t).map (fun p => (Json.str p.1, p.2))
      else if c = '-' ∨ rust_is_ascii_digit c = true then
        (parse_json_number l).map (fun p => (Json.num p.1, p.2))
      else if c = '[' then
        let t1 := skip_json_ws t
        match t1 with
        | ']' :: r => some (Json.arr [], r)
        | _ => parse_json_elements fuel t1 []
      else if c = '{' then
        let t1 := skip_json_ws t
        match t1 with
        | '}' :: r => some (Json.obj [], r)
        | _ => parse_json_members fuel t1 []
      else none

/-- Element loop of a strict JSON array (the accumulator holds the
already-parsed elements in order). -/
def parse_json_elements : Nat → List Char → List Json → Option (Json × List Char)
  | 0, _, _ => none
  | fuel+1, l, acc =>
    match parse_json_value fuel l with
    | none => none
    | some (v, r) =>
      match skip_json_ws r with
      | ',' :: r2 => parse_json_elements fuel (skip_json_ws r2) (acc ++ [v])
      | ']' :: r2 => some (Json.arr (acc ++ [v]), r2)
      | _ => none

/-- Member loop of a strict JSON object (the accumulator is the sorted
map built so far, duplicates replaced). -/
def parse_json_members : Nat → List Char → List (List Char × Json) →
    Option (Json × List Char)
  | 0, _, _ => none
  | fuel+1, l, acc =>
    match l with
    | '"' :: t =>
      match parse_json_string t with
      | none => none
      | some (k, r) =>
        match skip_json_ws r with
        | ':' :: r2 =>
          match parse_json_value fuel (skip_json_ws r2) with
          | none => none
          | some (v, r3) =>
            match skip_json_ws r3 with
            | ',' :: r4 => parse_json_members fuel (skip_json_ws r4) (insert_kv k v acc)
            | '}' :: r4 => some (Json.obj (insert_kv k v acc), r4)
            | _ => none
        | _ => none
    | _ => none

end

/-- Modelled from the spec: `serde_json::from_str::<Value>` — strict
parse of one JSON text with optional surrounding whitespace and nothing
after it. -/
def serde_from_str (s : String) : Option Json :=
  match parse_json_value (s.data.length + 1) (skip_json_ws s.data) with
  | some (v, r) => if skip_json_ws r = [] then some v else none
  | none => none

/-- Compact-serialisation escape of one scalar (serde escapes `"`, `\`
and the control range, passing all other scalars through verbatim). -/
def esc_char (c : Char) : List Char :=
  if c = '"' then [bslash, '"']
  else if c = bslash then [bslash, bslash]
  else if c = Char.ofNat 8 then [bslash, 'b']
  else if c = Char.ofNat 12 then [bslash, 'f']
  else if c = '\n' then [bslash, 'n']
  else if c = '\r' then [bslash, 'r']
  else if c = '\t' then [bslash, 't']
  else if c.toNat < 0x20 then
    [bslash, 'u', '0', '0', hexDigit (c.toNat / 16), hexDigit (c.toNat % 16)]
  else [c]

/-- Escaped body of a serialised string. -/
def str_content : List Char → List Char
  | [] => []
  | c :: t => esc_char c ++ str_content t

mutual

/-- Modelled from the spec: compact canonical serialisation
(`serde_json::to_string`). -/
def serialize : Json → List Char
  | Json.null => "null".data
  | Json.bool true => "true".data
  | Json.bool false => "false".data
  | Json.num tok => tok
  | Json.str s => '"' :: str_content s ++ ['"']
  | Json.arr xs => '[' :: ser_elements xs ++ [']']
  | Json.obj kvs => '{' :: ser_members kvs ++ ['}']

/-- Comma-joined serialised elements. -/
def ser_elements : List Json → List Char
  | [] => []
  | [x] => serialize x
  | x :: y :: t => serialize x ++ ',' :: ser_elements (y :: t)

/-- Comma-joined serialised `key:value` members. -/
def ser_members : List (List Char × Json) → List Char
  | [] => []
  | [(k, v)] => '"' :: str_content k ++ '"' :: ':' :: serialize v
  | (k, v) :: m :: t =>
    ('"' :: str_content k ++ '"' :: ':' :: serialize v) ++ ',' :: ser_members (m :: t)

end

/-- String form of the compact serialisation. -/
def serde_to_string (v : Json) : String := String.mk (serialize v)

/-- Model of Rust `str::trim` (both ends, `char::is_whitespace`). -/
def rust_trim (l : List Char) : List Char :=
  ((l.dropWhile rust_is_whitespace).reverse.dropWhile rust_is_whitespace).reverse

/-- `repair_json` of `lib.rs`: empty-after-trim inputs yield the empty
object; otherwise the fast path (strict parse, re-serialise) when
`skip_json_loads` is unset; otherwise the repair engine followed — again
unless `skip_json_loads` — by strict validation and re-serialisation of
its output. -/
def repair_json (fuel : Nat) (json_str : String) (options : RepairOptions) :
    Option (Except JsonRepairError String) :=
  if (rust_trim json_str.data).isEmpty then
    some (Except.ok (String.mk ['{', '}']))
  else
    let run : Option (Except JsonRepairError String) :=
      match run_engine options fuel json_str with
      | none => none
      | some repaired =>
        if !options.skip_json_loads then
          match serde_from_str repaired with
          | some value => some (Except.ok (serde_to_string value))
          | none => some (Except.error JsonRepairError.serdeError)
        else some (Except.ok repaired)
    if !options.skip_json_loads then
      match serde_from_str json_str with
      | some value => some (Except.ok (serde_to_string value))
      | none => run
    else run

/-- `loads` of `lib.rs`: repair, then strict-parse the repaired text. -/
def loads (fuel : Nat) (json_str : String) (options : RepairOptions) :
    Option (Except JsonRepairError Json) :=
  match repair_json fuel json_str options with
  | none => none
  | some (Except.error e) => some (Except.error e)
  | some (Except.ok repaired) =>
    match serde_from_str repaired with
    | some v => some (Except.ok v)
    | none => some (Except.error JsonRepairError.serdeError)

/-- The preamble jump as the spec words it: the first occurrence of
either `{` or `[`, whichever appears earliest in the remainder (written
from the spec for comparison with `json_start_jump`, which is the
code's). -/
def spec_earliest_start_jump (remaining : List Char) : Option Nat :=
  remaining.findIdx? (fun c => c = '{' || c = '[')

/-- Decidable equality of `Except` results (for concrete evaluations). -/
instance {ε α : Type} [DecidableEq ε] [DecidableEq α] : DecidableEq (Except ε α) := by
  intro x y
  cases x <;> cases y
  case error.error a b =>
    exact if h : a = b then isTrue (by rw [h]) else isFalse (fun hh => h (by injection hh))
  case ok.ok a b =>
    exact if h : a = b then isTrue (by rw [h]) else isFalse (fun hh => h (by injection hh))
  case error.ok a b => exact isFalse (fun hh => Except.noConfusion hh)
  case ok.error a b => exact isFalse (fun hh => Except.noConfusion hh)

/-! ### Grammar shapes and well-formedness of parsed values

These predicates describe exactly the values the strict parser can
produce: number tokens that fit the RFC 8259 number grammar, and objects
whose member lists are strictly sorted by key (serde's `BTreeMap`). -/

/-- Every character is a decimal digit. -/
def all_digits (l : List Char) : Prop := ∀ c ∈ l, rust_is_ascii_digit c = true

/-- RFC 8259 integer part: `0` alone, or a run with no leading zero. -/
def int_shape (int : List Char) : Prop :=
  int = ['0'] ∨
  (∃ c t, int = c :: t ∧ rust_is_ascii_digit c = true ∧ c ≠ '0' ∧ all_digits t)

/-- RFC 8259 fraction part: empty, or `.` then a non-empty digit run. -/
def frac_shape (fr : List Char) : Prop :=
  fr = [] ∨ ∃ ds, fr = '.' :: ds ∧ ds ≠ [] ∧ all_digits ds

/-- RFC 8259 exponent part: empty, or `e`/`E`, an optional sign, and a
non-empty digit run. -/
def exp_shape (ex : List Char) : Prop :=
  ex = [] ∨ ∃ e sg ds, ex = e :: (sg ++ ds) ∧ (e = 'e' ∨ e = 'E') ∧
    (sg = [] ∨ sg = ['+'] ∨ sg = ['-']) ∧ ds ≠ [] ∧ all_digits ds

/-- A full RFC 8259 number token. -/
def num_shape (tok : List Char) : Prop :=
  ∃ sgn int fr ex, tok = sgn ++ int ++ fr ++ ex ∧ (sgn = [] ∨ sgn = ['-']) ∧
    int_shape int ∧ frac_shape fr ∧ exp_shape ex

/-- Strict order on members by key. -/
def kv_lt (a b : List Char × Json) : Prop := key_lt a.1 b.1 = true

/-- Well-formed values: exactly the image of the strict parser — number
tokens fit the grammar, object member lists are strictly sorted. -/
inductive WfJ : Json → Prop where
  | null : WfJ Json.null
  | bool (b : Bool) : WfJ (Json.bool b)
  | num (tok : List Char) : num_shape tok → WfJ (Json.num tok)
  | str (s : List Char) : WfJ (Json.str s)
  | arr (xs : List Json) : (∀ x ∈ xs, WfJ x) → WfJ (Json.arr xs)
  | obj (kvs : List (List Char × Json)) : List.Pairwise kv_lt kvs →
      (∀ kv ∈ kvs, WfJ kv.2) → WfJ (Json.obj kvs)

mutual

/-- Fuel needed by `parse_json_value` on the serialisation of a value. -/
def sizeJ : Json → Nat
  | Json.null => 1
  | Json.bool _ => 1
  | Json.num _ => 1
  | Json.str _ => 1
  | Json.arr xs => 1 + sizeL xs
  | Json.obj kvs => 1 + sizeM kvs

/-- Fuel needed by `parse_json_elements` on serialised elements. -/
def sizeL : List Json → Nat
  | [] => 0
  | x :: t => sizeJ x + 1 + sizeL t

/-- Fuel needed by `parse_json_members` on serialised members. -/
def sizeM : List (List Char × Json) → Nat
  | [] => 0
  | (_, v) :: t => sizeJ v + 1 + sizeM t

end

/-- Characters that can begin a serialised JSON value. -/
def value_start (c : Char) : Bool :=
  c = 'n' || c = 't' || c = 'f' || c = '"' || c = '-' || rust_is_ascii_digit c ||
  c = '[' || c = '{'

/-- The first character of `r` (if any) cannot extend a number token:
this is what the separators `,`, `]`, `}` and the end of input satisfy. -/
def val_stop (r : List Char) : Prop :=
  match r with
  | [] => True
  | c :: _ => rust_is_ascii_digit c = false ∧ c ≠ '.' ∧ c ≠ 'e' ∧ c ≠ 'E'

/-! ## Basic lemmas about the engine's state operations -/

theorem char_toNat_inj {c d : Char} (h : c.toNat = d.toNat) : c = d :=
  Char.ext (UInt32.toNat.inj h)

theorem current_char_append_char (s : ParserSt) (c : Char) :
    current_char (append_char s c) = current_char s := rfl

theorem current_char_append_str (s : ParserSt) (t : List Char) :
    current_char (append_str s t) = current_char s := rfl

theorem skip_whitespace_not_ws {s : ParserSt} {c : Char}
    (h : current_char s = some c) (hw : rust_is_whitespace c = false) :
    skip_whitespace s = s := by
  unfold skip_whitespace
  cases hm : msr s with
  | zero => rfl
  | succ n => simp [skip_whitespace_aux, h, hw]

theorem skip_whitespace_at_none {s : ParserSt}
    (h : current_char s = none) : skip_whitespace s = s := by
  unfold skip_whitespace
  cases hm : msr s with
  | zero => rfl
  | succ n => simp [skip_whitespace_aux, h]

theorem skip_comments_not_slash {s : ParserSt} {c : Char}
    (h : current_char s = some c) (hc : c ≠ '/') : skip_comments s = s := by
  simp [skip_comments, h, hc]

theorem skip_comments_at_none {s : ParserSt}
    (h : current_char s = none) : skip_comments s = s := by
  simp [skip_comments, h]

theorem parse_unquoted_at_delim {o : RepairOptions} {s : ParserSt} {c : Char}
    (h : current_char s = some c)
    (hc : (c = ',' || c = '}' || c = ']' || c = ':') = true) :
    parse_unquoted_string o s = append_char s '"' := by
  unfold parse_unquoted_string
  show parse_unquoted_string_aux o (msr s + 1) s = _
  simp [parse_unquoted_string_aux, h, hc]

/-- At a stray colon, `parse_value` dispatches to unquoted-string mode
and consumes nothing, emitting only an empty string `""`. -/
theorem parse_value_at_colon (o : RepairOptions) (fuel : Nat)
    (I : List Char) (p : Nat) (out : List Char) (stk : List ParseState)
    (h : I[p]? = some ':') :
    parse_value o (fuel+1) ⟨I, p, out, stk⟩ =
      some ⟨I, p, out ++ ['"', '"'], stk⟩ := by
  have hc : current_char ⟨I, p, out, stk⟩ = some ':' := h
  have h1 := skip_whitespace_not_ws hc (by decide)
  have h2 := skip_comments_not_slash hc (by decide)
  have h3 := parse_unquoted_at_delim (o := o)
    (s := append_char ⟨I, p, out, stk⟩ '"') (c := ':')
    (by rw [current_char_append_char]; exact hc) (by decide)
  simp only [parse_value, h1, h2, hc]
  rw [if_neg (by decide), if_neg (by decide), if_neg (by decide), if_neg (by decide),
    if_neg (by decide)]
  rw [h3]
  simp [append_char, List.append_assoc]

/-- With the cursor on a stray colon after a first member, the object
loop of `parse_object` makes no progress: it emits `,"unknown":""` and
repeats, for every fuel. -/
theorem parse_object_loop_stuck_at_colon (o : RepairOptions)
    (I : List Char) (p : Nat) (h : I[p]? = some ':') :
    ∀ (fuel : Nat) (out : List Char) (stk : List ParseState),
      parse_object_loop o fuel ⟨I, p, out, stk⟩ false true = none := by
  intro fuel
  induction fuel with
  | zero => intro out stk; rfl
  | succ fuel ih =>
    intro out stk
    have hc : current_char ⟨I, p, out, stk⟩ = some ':' := h
    have h1 := skip_whitespace_not_ws hc (by decide)
    have h2 := skip_comments_not_slash hc (by decide)
    simp only [parse_object_loop, h1, h2, hc]
    rw [if_neg (by decide), if_neg (by decide)]
    simp only [reduceIte]
    cases fuel with
    | zero => simp [parse_value]
    | succ g =>
      rw [show (append_str (append_char ⟨I, p, out, stk⟩ ',') "\"unknown\":".data) =
            (⟨I, p, (out ++ [',']) ++ "\"unknown\":".data, stk⟩ : ParserSt) from rfl]
      rw [parse_value_at_colon o g I p _ stk h]
      exact ih _ _

/-- Composition: `repair_json` returns `none` (the step budget ran out —
for every budget, on diverging inputs) as soon as the trimmed input is
non-empty, the strict parse of the input fails, and the engine's
`parse_value` runs out of fuel after the preamble. -/
theorem repair_json_none_of_value_none {fuel : Nat} {t : String} {o : RepairOptions}
    (h1 : (rust_trim t.data).isEmpty = false)
    (h2 : serde_from_str t = none)
    (h3 : parse_value o fuel
      (parse_preamble ⟨t.data, 0, [], [ParseState.Root]⟩) = none) :
    repair_json fuel t o = none := by
  have hrun : run_engine o fuel t = none := by
    simp [run_engine, parse_top, h3]
  cases hskip : o.skip_json_loads <;>
    simp [repair_json, h1, h2, hrun, hskip]

/-- On `{"a":1 :}` the object loop reaches the stray colon with
`expecting_key = false` and never terminates, whatever the fuel. -/
theorem c1_loop_diverges : ∀ f : Nat, parse_object_loop RepairOptions.default f
    ⟨"\x7b\"a\":1 :\x7d".data, 1, ['{'], [ParseState.Root, ParseState.Object]⟩
    true false = none
  | 0 => rfl
  | 1 => rfl
  | (g+2) => by
    show parse_object_loop RepairOptions.default (g+1)
      ⟨"\x7b\"a\":1 :\x7d".data, 7, ['{', '"', 'a', '"', ':', '1'],
        [ParseState.Root, ParseState.Object]⟩ false true = none
    exact parse_object_loop_stuck_at_colon _ _ 7 rfl (g+1) _ _

/-- On `{"a":1 :}` the dispatcher enters the object parser, which
diverges. -/
theorem c1_value_diverges : ∀ fuel : Nat, parse_value RepairOptions.default fuel
    ⟨"\x7b\"a\":1 :\x7d".data, 0, [], [ParseState.Root]⟩ = none
  | 0 => rfl
  | fuel+1 => by
    show (match parse_object_loop RepairOptions.default fuel
        ⟨"\x7b\"a\":1 :\x7d".data, 1, ['{'], [ParseState.Root, ParseState.Object]⟩
        true false with
      | some s1 => some (pop_state s1)
      | none => none) = none
    rw [c1_loop_diverges fuel]

/-- C1: the claim says the repair engine terminates for every input in
`O(|input|)` steps.  The code does not terminate at all on `{"a":1 :}`
with default options: after the member `"a":1`, the stray colon keeps the
object loop emitting `,"unknown":""` forever, so `repair_json` (modelled
with a step budget) exhausts every budget. -/
theorem C1_repair_does_not_always_terminate :
    ∀ fuel : Nat,
      repair_json fuel "\x7b\"a\":1 :\x7d" RepairOptions.default = none :=
  fun fuel =>
    repair_json_none_of_value_none (by rfl) (by rfl) (c1_value_diverges fuel)

/-- On `{"a":1 "b":2}` the object loop consumes `"b"` as an `"unknown"`
member value and then reaches the colon with `expecting_key = false`,
where it never terminates, whatever the fuel. -/
theorem c3_loop_diverges : ∀ f : Nat, parse_object_loop RepairOptions.default f
    ⟨"\x7b\"a\":1 \"b\":2\x7d".data, 1, ['{'], [ParseState.Root, ParseState.Object]⟩
    true false = none
  | 0 => rfl
  | 1 => rfl
  | 2 => rfl
  | (g+3) => by
    show parse_object_loop RepairOptions.default (g+1)
      ⟨"\x7b\"a\":1 \"b\":2\x7d".data, 10,
        ['{', '"', 'a', '"', ':', '1', ',', ',', '"', 'u', 'n', 'k', 'n', 'o', 'w', 'n',
          '"', ':', '"', 'b', '"'],
        [ParseState.Root, ParseState.Object]⟩ false true = none
    exact parse_object_loop_stuck_at_colon _ _ 10 rfl (g+1) _ _

/-- On `{"a":1 "b":2}` the dispatcher enters the object parser, which
diverges. -/
theorem c3_value_diverges : ∀ fuel : Nat, parse_value RepairOptions.default fuel
    ⟨"\x7b\"a\":1 \"b\":2\x7d".data, 0, [], [ParseState.Root]⟩ = none
  | 0 => rfl
  | fuel+1 => by
    show (match parse_object_loop RepairOptions.default fuel
        ⟨"\x7b\"a\":1 \"b\":2\x7d".data, 1, ['{'], [ParseState.Root, ParseState.Object]⟩
        true false with
      | some s1 => some (pop_state s1)
      | none => none) = none
    rw [c3_loop_diverges fuel]

/-- C3: the claim (and the spec's scenario 7) says `{"a":1 "b":2}`
repairs to `{"a":1,"b":2}` under default options.  The code instead
diverges on this input: the look-ahead after the member `"a":1` emits the
missing comma but leaves the loop in the `expecting_key = false` state,
so `"b"` is consumed as the value of an injected `"unknown"` key (after a
second comma) and the loop then spins forever on the remaining colon;
`repair_json` never returns, for every step budget. -/
theorem C3_missing_comma_scenario_diverges :
    ∀ fuel : Nat,
      repair_json fuel "\x7b\"a\":1 \"b\":2\x7d" RepairOptions.default = none :=
  fun fuel =>
    repair_json_none_of_value_none (by rfl) (by rfl) (c3_value_diverges fuel)

/-! ## The preamble jump (C7) -/

theorem find_from_shift (pat : List Char) :
    ∀ (l : List Char) (i : Nat),
      find_from pat l (i+1) = (find_from pat l i).map (· + 1) := by
  intro l
  induction l with
  | nil => intro i; simp only [find_from]; split <;> simp
  | cons x t ih =>
    intro i
    simp only [find_from]
    split
    · simp
    · exact ih (i+1)

theorem find_from_single (c : Char) : ∀ l : List Char,
    (match find_from [c] l 0 with
     | some j => l[j]? = some c ∧ ∀ k : Nat, k < j → l[k]? ≠ some c
     | none => ∀ k : Nat, l[k]? ≠ some c) := by
  intro l
  induction l with
  | nil => simp [find_from, starts_with_chars]
  | cons x t ih =>
    by_cases hcx : c = x
    · subst hcx
      have : find_from [c] (c :: t) 0 = some 0 := by
        simp [find_from, starts_with_chars]
      rw [this]
      exact ⟨by simp, fun k hk => absurd hk (by omega)⟩
    · have hstep : find_from [c] (x :: t) 0 = (find_from [c] t 0).map (· + 1) := by
        rw [show find_from [c] (x :: t) 0 =
            if starts_with_chars [c] (x :: t) then some 0 else find_from [c] t 1 from rfl]
        rw [if_neg (by simp [starts_with_chars, hcx])]
        exact find_from_shift [c] t 0
      rw [hstep]
      cases hft : find_from [c] t 0 with
      | none =>
        rw [hft] at ih
        simp only [Option.map_none']
        intro k
        cases k with
        | zero =>
          simp only [List.getElem?_cons_zero]
          intro h
          exact hcx (Option.some.inj h).symm
        | succ k => simpa using ih k
      | some j =>
        rw [hft] at ih
        simp only [Option.map_some']
        refine ⟨by simpa using ih.1, ?_⟩
        intro k hk
        cases k with
        | zero =>
          simp only [List.getElem?_cons_zero]
          intro h
          exact hcx (Option.some.inj h).symm
        | succ k => simpa using ih.2 k (by omega)

theorem utf8Size_of_ascii {c : Char} (h : c.toNat ≤ 0x7F) : c.utf8Size = 1 := by
  unfold Char.utf8Size
  rw [if_pos (UInt32.le_def.mpr (by exact Fin.mk_le_mk.mpr h))]

theorem utf8_len_ascii : ∀ pre : List Char, (∀ c ∈ pre, c.toNat ≤ 0x7F) →
    utf8_len pre = pre.length
  | [], _ => rfl
  | c :: t, hp => by
    simp only [utf8_len, List.length_cons]
    rw [utf8Size_of_ascii (hp c (List.mem_cons_self c t)),
      utf8_len_ascii t (fun x hx => hp x (List.mem_cons_of_mem c hx))]
    omega

theorem byte_find_not_mem {target : Char} :
    ∀ {l : List Char}, target ∉ l → byte_find target l = none := by
  intro l
  induction l with
  | nil => intro _; rfl
  | cons c t ih =>
    intro h
    have hc : ¬ c = target := fun he => h (by rw [← he]; exact List.mem_cons_self c t)
    simp only [byte_find, if_neg hc]
    rw [ih (fun hm => h (List.mem_cons_of_mem c hm))]

theorem byte_find_before {target : Char} :
    ∀ {pre : List Char} (post : List Char), target ∉ pre →
      byte_find target (pre ++ target :: post) = some (utf8_len pre) := by
  intro pre
  induction pre with
  | nil =>
    intro post _
    simp only [List.nil_append, byte_find, if_pos rfl]
    rfl
  | cons c t ih =>
    intro post h
    have hc : ¬ c = target := fun he => h (by rw [← he]; exact List.mem_cons_self c t)
    simp only [List.cons_append, byte_find, if_neg hc]
    erw [ih post (fun hm => h (List.mem_cons_of_mem c hm))]
    rfl

/-- C7 (corrected): the jump adds `remaining.find('\x7b')` — a UTF-8 BYTE
offset — to the character-indexed cursor.  It targets the first `{`
whenever one occurs anywhere in the remainder, even when a `[` comes
earlier, and falls back to the first `[` only when no `{` exists at all;
the number added is the byte length of the prefix before the opener,
which equals the opener's character index exactly when that prefix is
pure ASCII.  On the remainder `é \x7b\x7d` the code adds 3 although the
`{` sits at character index 2, so the cursor overshoots the brace. -/
theorem C7_amended_byte_offset_jump :
    (∀ pre post : List Char, '{' ∉ pre →
      json_start_jump (pre ++ '{' :: post) = some (utf8_len pre)) ∧
    (∀ pre post : List Char, '{' ∉ pre → '{' ∉ post → '[' ∉ pre →
      json_start_jump (pre ++ '[' :: post) = some (utf8_len pre)) ∧
    (∀ pre : List Char, (∀ c ∈ pre, c.toNat ≤ 0x7F) →
      utf8_len pre = pre.length) ∧
    (json_start_jump "é \x7b\x7d".data = some 3 ∧
      spec_earliest_start_jump "é \x7b\x7d".data = some 2) := by
  refine ⟨?_, ?_, utf8_len_ascii, by decide, by decide⟩
  · intro pre post h
    unfold json_start_jump
    rw [byte_find_before post h]
    rfl
  · intro pre post h1 h2 h3
    have hnb : byte_find '{' (pre ++ '[' :: post) = none := by
      apply byte_find_not_mem
      intro hm
      rcases List.mem_append.mp hm with hm | hm
      · exact h1 hm
      · rcases List.mem_cons.mp hm with he | hm
        · exact absurd he (by decide)
        · exact h2 hm
    unfold json_start_jump
    rw [hnb, byte_find_before post h3]
    rfl

theorem C7_amended_witness :
    json_start_jump (['['] ++ '{' :: []) = some (utf8_len ['[']) :=
  C7_amended_byte_offset_jump.1 ['['] [] (by decide)

/-- C7 counterexample: on the remainder `[{`, the claim ("jump to
whichever of `{` or `[` appears earliest") predicts index 0 (the `[`),
but the code's jump goes to the `{` at index 1, because it looks for a
`{` first and falls back to `[` only when no `{` exists at all. -/
theorem C7_counterexample_bracket_before_brace :
    json_start_jump ['[', '{'] = some 1 ∧
    spec_earliest_start_jump ['[', '{'] = some 0 :=
  ⟨rfl, rfl⟩

/-! ## Empty and whitespace-only inputs (C8) -/

theorem rust_trim_isEmpty_of_all_ws {t : List Char}
    (h : ∀ c ∈ t, rust_is_whitespace c = true) : (rust_trim t).isEmpty = true := by
  unfold rust_trim
  have h1 : t.dropWhile rust_is_whitespace = [] := List.dropWhile_eq_nil_iff.mpr h
  simp [h1]

/-- C8: for every options record and every fuel, `repair_json` maps the
empty input and every whitespace-only input to `{}` (the first check in
`repair_json` trims and returns `Ok("{}")`). -/
theorem C8_whitespace_only_repairs_to_empty_object :
    ∀ (fuel : Nat) (o : RepairOptions) (t : String),
      (∀ c ∈ t.data, rust_is_whitespace c = true) →
      repair_json fuel t o = some (Except.ok (String.mk ['{', '}'])) := by
  intro fuel o t h
  simp [repair_json, rust_trim_isEmpty_of_all_ws h]

/-- Witness for C8 at the whitespace input `" \t "` (and the empty input
is covered by the same theorem vacuously). -/
theorem C8_witness :
    (∀ c ∈ (" \t ".data), rust_is_whitespace c = true) ∧
    repair_json 0 " \t " RepairOptions.default = some (Except.ok (String.mk ['{', '}'])) :=
  ⟨by decide, C8_whitespace_only_repairs_to_empty_object 0 RepairOptions.default " \t " (by decide)⟩

/-! ## The error taxonomy (C9) -/

theorem repair_json_error_is_serde {fuel : Nat} {t : String} {o : RepairOptions}
    {e : JsonRepairError}
    (h : repair_json fuel t o = some (Except.error e)) :
    e = JsonRepairError.serdeError := by
  by_cases h1 : (rust_trim t.data).isEmpty
  · simp [repair_json, h1] at h
  · cases h3 : o.skip_json_loads with
    | true =>
      cases h2 : run_engine o fuel t with
      | none => simp [repair_json, h1, h3, h2] at h
      | some rep => simp [repair_json, h1, h3, h2] at h
    | false =>
      cases h4 : serde_from_str t with
      | some v => simp [repair_json, h1, h3, h4] at h
      | none =>
        cases h2 : run_engine o fuel t with
        | none => simp [repair_json, h1, h3, h4, h2] at h
        | some rep =>
          cases h5 : serde_from_str rep with
          | some v => simp [repair_json, h1, h3, h4, h2, h5] at h
          | none =>
            simp [repair_json, h1, h3, h4, h2, h5] at h
            exact h.symm

/-- C9: the `UnrepairableJson` and `Utf8Error` variants are declared but
never constructed; every error surfaced by `repair_json` or `loads` is an
`IoError` or a `SerdeError` (in fact always a `SerdeError` from the
strict parse of the repaired output). -/
theorem C9_no_unrepairable_or_utf8_errors :
    ∀ (fuel : Nat) (t : String) (o : RepairOptions) (e : JsonRepairError),
      (repair_json fuel t o = some (Except.error e) ∨
       loads fuel t o = some (Except.error e)) →
      e = JsonRepairError.ioError ∨ e = JsonRepairError.serdeError := by
  intro fuel t o e h
  rcases h with h | h
  · exact Or.inr (repair_json_error_is_serde h)
  · unfold loads at h
    cases h2 : repair_json fuel t o with
    | none => rw [h2] at h; exact absurd h (by simp)
    | some r =>
      rw [h2] at h
      cases r with
      | error e2 =>
        have h' : some (Except.error e2) = some (Except.error e) := h
        have he : e2 = e := by simpa using h'
        exact Or.inr (he ▸ repair_json_error_is_serde h2)
      | ok rep =>
        have h' : (match serde_from_str rep with
            | some v => some (Except.ok v)
            | none => some (Except.error JsonRepairError.serdeError)) =
            some (Except.error e) := h
        cases h5 : serde_from_str rep with
        | some v => rw [h5] at h'; exact absurd h' (by simp)
        | none =>
          rw [h5] at h'
          have : JsonRepairError.serdeError = e := by simpa using h'
          exact Or.inr this.symm

/-- Witness for C9: on input `-` with default options the engine output
`-"-"` fails validation, surfacing a `SerdeError`. -/
theorem C9_witness :
    (repair_json 30 "-" RepairOptions.default =
      some (Except.error JsonRepairError.serdeError)) ∧
    (JsonRepairError.serdeError = JsonRepairError.ioError ∨
     JsonRepairError.serdeError = JsonRepairError.serdeError) :=
  ⟨by rfl,
   C9_no_unrepairable_or_utf8_errors 30 "-" RepairOptions.default _ (Or.inl (by rfl))⟩

/-! ## Counterexamples for C2, C5 and C6 -/

/-- C2 counterexample: with `skip_json_loads` set (a case the claim
explicitly includes), `repair_json` on `-x` returns `Ok` with the raw
engine output `-"-x"` — the number parser's failed-scan reset truncates
by zero and leaves the stray `-` — and that output fails a strict RFC
8259 parse. -/
theorem C2_counterexample_skip_validation_output_invalid :
    repair_json 30 "-x"
      { skip_json_loads := true, return_objects := false,
        ensure_ascii := true, stream_stable := false } =
      some (Except.ok "-\"-x\"") ∧
    serde_from_str "-\"-x\"" = none :=
  ⟨rfl, rfl⟩

/-- C5 counterexample: with `skip_json_loads` set, repairing `-` yields
`-"-"`, but repairing that output again yields `-"-\"-\""`, not itself —
idempotence fails for successful repairs under these options. -/
theorem C5_counterexample_not_idempotent_with_skip :
    repair_json 30 "-"
      { skip_json_loads := true, return_objects := false,
        ensure_ascii := true, stream_stable := false } =
      some (Except.ok "-\"-\"") ∧
    repair_json 30 "-\"-\""
      { skip_json_loads := true, return_objects := false,
        ensure_ascii := true, stream_stable := false } =
      some (Except.ok "-\"-\\\"-\\\"\"") ∧
    ("-\"-\\\"-\\\"\"" : String) ≠ "-\"-\"" :=
  ⟨rfl, rfl, by decide⟩

/-- C6 counterexample: with `ensure_ascii` set (the default), the valid
input `"é"` takes the fast path, which re-serialises through the strict
parser without any ASCII escaping; the successful output contains the
scalar U+00E9 > 0x7F. -/
theorem C6_counterexample_fast_path_emits_non_ascii :
    repair_json 9 "\"é\"" RepairOptions.default = some (Except.ok "\"é\"") ∧
    ¬ (∀ c ∈ ("\"é\"" : String).data, c.val ≤ 0x7F) :=
  ⟨rfl, by decide⟩

/-! ## Option-field independence (C10) -/

theorem emit_char_opts {o1 o2 : RepairOptions}
    (h : o1.ensure_ascii = o2.ensure_ascii) (s : ParserSt) (ch : Char) :
    emit_char o1 s ch = emit_char o2 s ch := by
  simp [emit_char, h]

theorem parse_unquoted_aux_opts {o1 o2 : RepairOptions}
    (h : o1.ensure_ascii = o2.ensure_ascii) :
    ∀ (n : Nat) (s : ParserSt),
      parse_unquoted_string_aux o1 n s = parse_unquoted_string_aux o2 n s := by
  intro n
  induction n with
  | zero => intro s; rfl
  | succ n ih =>
    intro s
    simp only [parse_unquoted_string_aux, emit_char_opts h, ih]

theorem parse_unquoted_opts {o1 o2 : RepairOptions}
    (h : o1.ensure_ascii = o2.ensure_ascii) (s : ParserSt) :
    parse_unquoted_string o1 s = parse_unquoted_string o2 s :=
  parse_unquoted_aux_opts h _ s

theorem parse_string_loop_aux_opts {o1 o2 : RepairOptions}
    (h : o1.ensure_ascii = o2.ensure_ascii) (quote : Char) :
    ∀ (n : Nat) (s : ParserSt),
      parse_string_loop_aux o1 quote n s = parse_string_loop_aux o2 quote n s := by
  intro n
  induction n with
  | zero => intro s; rfl
  | succ n ih =>
    intro s
    simp only [parse_string_loop_aux, emit_char_opts h, ih]

theorem parse_string_opts {o1 o2 : RepairOptions}
    (h : o1.ensure_ascii = o2.ensure_ascii) (s : ParserSt) :
    parse_string o1 s = parse_string o2 s := by
  simp only [parse_string, parse_string_loop, parse_string_loop_aux_opts h,
    parse_unquoted_opts h]

theorem parse_number_opts {o1 o2 : RepairOptions}
    (h : o1.ensure_ascii = o2.ensure_ascii) (s : ParserSt) :
    parse_number o1 s = parse_number o2 s := by
  simp only [parse_number, parse_unquoted_opts h]

theorem parse_literal_opts {o1 o2 : RepairOptions}
    (h : o1.ensure_ascii = o2.ensure_ascii) (s : ParserSt) :
    parse_literal o1 s = parse_literal o2 s := by
  simp only [parse_literal, parse_unquoted_opts h]

theorem engine_opts {o1 o2 : RepairOptions}
    (h : o1.ensure_ascii = o2.ensure_ascii) :
    ∀ fuel : Nat,
      (∀ s, parse_value o1 fuel s = parse_value o2 fuel s) ∧
      (∀ s ek nc, parse_object_loop o1 fuel s ek nc = parse_object_loop o2 fuel s ek nc) ∧
      (∀ s nc, parse_array_loop o1 fuel s nc = parse_array_loop o2 fuel s nc) := by
  intro fuel
  induction fuel with
  | zero => exact ⟨fun s => rfl, fun s ek nc => rfl, fun s nc => rfl⟩
  | succ fuel ih =>
    obtain ⟨ihv, iho, iha⟩ := ih
    refine ⟨fun s => ?_, fun s ek nc => ?_, fun s nc => ?_⟩
    · simp only [parse_value, parse_string_opts h, parse_number_opts h,
        parse_literal_opts h, parse_unquoted_opts h, iho, iha]
    · simp only [parse_object_loop, parse_string_opts h, parse_unquoted_opts h, ihv, iho]
    · simp only [parse_array_loop, ihv, iha]

/-- C10: two options records that agree on `skip_json_loads` and
`ensure_ascii` but differ arbitrarily in `return_objects` and
`stream_stable` produce identical `repair_json` results on every input
(those two fields are never read). -/
theorem C10_return_objects_stream_stable_never_read :
    ∀ (fuel : Nat) (t : String) (o1 o2 : RepairOptions),
      o1.skip_json_loads = o2.skip_json_loads →
      o1.ensure_ascii = o2.ensure_ascii →
      repair_json fuel t o1 = repair_json fuel t o2 := by
  intro fuel t o1 o2 hs he
  have hrun : run_engine o1 fuel t = run_engine o2 fuel t := by
    simp only [run_engine, parse_top, (engine_opts he fuel).1]
  simp only [repair_json, hs, hrun]

/-- Witness for C10: flipping `return_objects` and `stream_stable` on
the default options leaves the result on `[1]` unchanged. -/
theorem C10_witness :
    ((RepairOptions.default).skip_json_loads =
      ({ skip_json_loads := false, return_objects := true,
         ensure_ascii := true, stream_stable := true } : RepairOptions).skip_json_loads) ∧
    ((RepairOptions.default).ensure_ascii =
      ({ skip_json_loads := false, return_objects := true,
         ensure_ascii := true, stream_stable := true } : RepairOptions).ensure_ascii) ∧
    repair_json 5 "[1]" RepairOptions.default =
      repair_json 5 "[1]"
        { skip_json_loads := false, return_objects := true,
          ensure_ascii := true, stream_stable := true } :=
  ⟨rfl, rfl,
   C10_return_objects_stream_stable_never_read 5 "[1]" RepairOptions.default
     { skip_json_loads := false, return_objects := true,
       ensure_ascii := true, stream_stable := true } rfl rfl⟩

/-! ## The key order and sorted insertion -/

theorem key_lt_irrefl : ∀ l : List Char, key_lt l l = false := by
  intro l
  induction l with
  | nil => rfl
  | cons a t ih => simp [key_lt, ih]

theorem key_lt_trans :
    ∀ {a b c : List Char}, key_lt a b = true → key_lt b c = true → key_lt a c = true := by
  intro a
  induction a with
  | nil =>
    intro b c hab hbc
    cases b with
    | nil => exact absurd hab (by simp [key_lt])
    | cons y ys =>
      cases c with
      | nil => exact absurd hbc (by simp [key_lt])
      | cons z zs => simp [key_lt]
  | cons x xs ih =>
    intro b c hab hbc
    cases b with
    | nil => exact absurd hab (by simp [key_lt])
    | cons y ys =>
      cases c with
      | nil => exact absurd hbc (by simp [key_lt])
      | cons z zs =>
        simp only [key_lt, Bool.or_eq_true, Bool.and_eq_true, decide_eq_true_eq] at hab hbc ⊢
        rcases hab with hab | ⟨rfl, hab⟩
        · rcases hbc with hbc | ⟨rfl, hbc⟩
          · exact Or.inl (by omega)
          · exact Or.inl hab
        · rcases hbc with hbc | ⟨rfl, hbc⟩
          · exact Or.inl hbc
          · exact Or.inr ⟨rfl, ih hab hbc⟩

theorem key_lt_connex :
    ∀ a b : List Char, a ≠ b → key_lt a b = true ∨ key_lt b a = true := by
  intro a
  induction a with
  | nil =>
    intro b hne
    cases b with
    | nil => exact absurd rfl hne
    | cons y ys => exact Or.inl (by simp [key_lt])
  | cons x xs ih =>
    intro b hne
    cases b with
    | nil => exact Or.inr (by simp [key_lt])
    | cons y ys =>
      by_cases hxy : x = y
      · subst hxy
        have hne2 : xs ≠ ys := fun hh => hne (by rw [hh])
        rcases ih ys hne2 with h | h
        · exact Or.inl (by simp [key_lt, h])
        · exact Or.inr (by simp [key_lt, h])
      · have hn : x.toNat ≠ y.toNat := fun hh => hxy (char_toNat_inj hh)
        rcases Nat.lt_or_ge x.toNat y.toNat with h | h
        · exact Or.inl (by simp [key_lt]; omega)
        · exact Or.inr (by simp [key_lt]; omega)

theorem key_lt_asymm {a b : List Char}
    (h1 : key_lt a b = true) (h2 : key_lt b a = true) : False := by
  have := key_lt_trans h1 h2
  rw [key_lt_irrefl] at this
  exact absurd this (by simp)

theorem mem_insert_kv {k : List Char} {v : Json} :
    ∀ {l : List (List Char × Json)} {x},
      x ∈ insert_kv k v l → x = (k, v) ∨ x ∈ l := by
  intro l
  induction l with
  | nil => intro x hx; simpa [insert_kv] using hx
  | cons kv t ih =>
    intro x hx
    obtain ⟨k1, v1⟩ := kv
    simp only [insert_kv] at hx
    split at hx
    · rcases List.mem_cons.mp hx with rfl | hx
      · exact Or.inl rfl
      · exact Or.inr hx
    · split at hx
      · rcases List.mem_cons.mp hx with rfl | hx
        · exact Or.inl rfl
        · exact Or.inr (List.mem_cons_of_mem _ hx)
      · rcases List.mem_cons.mp hx with rfl | hx
        · exact Or.inr (List.mem_cons_self _ _)
        · rcases ih hx with h | h
          · exact Or.inl h
          · exact Or.inr (List.mem_cons_of_mem _ h)

theorem insert_kv_pairwise {k : List Char} {v : Json} :
    ∀ {l : List (List Char × Json)},
      List.Pairwise kv_lt l → List.Pairwise kv_lt (insert_kv k v l) := by
  intro l
  induction l with
  | nil => intro _; simp [insert_kv, List.Pairwise]
  | cons kv t ih =>
    intro hp
    obtain ⟨k1, v1⟩ := kv
    rw [List.pairwise_cons] at hp
    obtain ⟨h1, h2⟩ := hp
    simp only [insert_kv]
    split
    next hlt =>
      rw [List.pairwise_cons]
      refine ⟨?_, by rw [List.pairwise_cons]; exact ⟨h1, h2⟩⟩
      intro b hb
      rcases List.mem_cons.mp hb with rfl | hb
      · exact hlt
      · exact key_lt_trans hlt (h1 b hb)
    next hlt =>
      split
      next heq =>
        subst heq
        rw [List.pairwise_cons]
        exact ⟨h1, h2⟩
      next hne =>
        rw [List.pairwise_cons]
        refine ⟨?_, ih h2⟩
        intro b hb
        rcases mem_insert_kv hb with rfl | hb
        · rcases key_lt_connex k1 k (fun hh => hne hh.symm) with h | h
          · exact h
          · exact absurd h (by simp [hlt])
        · exact h1 b hb

theorem insert_kv_append {k : List Char} {v : Json} :
    ∀ {l : List (List Char × Json)},
      (∀ kv ∈ l, key_lt kv.1 k = true) → insert_kv k v l = l ++ [(k, v)] := by
  intro l
  induction l with
  | nil => intro _; rfl
  | cons kv t ih =>
    intro hall
    obtain ⟨k1, v1⟩ := kv
    have h1 : key_lt k1 k = true := hall (k1, v1) (List.mem_cons_self _ _)
    have hno : ¬ (key_lt k k1 = true) := fun hh => key_lt_asymm hh h1
    have hne : ¬ (k = k1) := by
      rintro rfl
      rw [key_lt_irrefl] at h1
      exact absurd h1 (by simp)
    simp only [insert_kv, if_neg hno, if_neg hne]
    rw [ih (fun kv hkv => hall kv (List.mem_cons_of_mem _ hkv))]
    simp

/-! ## Round trip: strings -/

theorem char_toNat_ofNat {n : Nat} (h : n < 0xD800) : (Char.ofNat n).toNat = n := by
  rw [Char.ofNat, dif_pos (Or.inl h)]
  rfl

theorem hex_val_hexDigit {d : Nat} (h : d < 16) : hex_val (hexDigit d) = some d := by
  unfold hexDigit hex_val
  by_cases h10 : d < 10
  · rw [if_pos h10]
    have ht : (Char.ofNat (48 + d)).toNat = 48 + d := char_toNat_ofNat (by omega)
    rw [if_pos (by omega)]
    exact congrArg some (by omega)
  · rw [if_neg h10]
    have ht : (Char.ofNat (87 + d)).toNat = 87 + d := char_toNat_ofNat (by omega)
    rw [if_neg (by omega), if_pos (by omega)]
    exact congrArg some (by omega)

theorem parse_json_string_aux_unicode_escape {h3 h4 : Char} {n3 n4 : Nat}
    (e3 : hex_val h3 = some n3) (e4 : hex_val h4 = some n4)
    (hn : n3 * 16 + n4 < 0xD800) (fu : Nat) (rest : List Char) :
    parse_json_string_aux (fu+1) (bslash :: 'u' :: '0' :: '0' :: h3 :: h4 :: rest) =
      (parse_json_string_aux fu rest).map
        (fun p => (Char.ofNat (n3 * 16 + n4) :: p.1, p.2)) := by
  simp only [parse_json_string_aux]
  rw [if_neg (by decide), if_pos (by decide)]
  rw [if_neg (show ¬ ('u' = '"') from by decide),
    if_neg (show ¬ ('u' = bslash) from by decide),
    if_neg (show ¬ ('u' = '/') from by decide),
    if_neg (show ¬ ('u' = 'b') from by decide),
    if_neg (show ¬ ('u' = 'f') from by decide),
    if_neg (show ¬ ('u' = 'n') from by decide),
    if_neg (show ¬ ('u' = 'r') from by decide),
    if_neg (show ¬ ('u' = 't') from by decide)]
  rw [if_pos trivial]
  rw [show hex_val '0' = some 0 from by decide]
  rw [e3, e4]
  show (if 55296 ≤ ((0 * 16 + 0) * 16 + n3) * 16 + n4 ∧
        ((0 * 16 + 0) * 16 + n3) * 16 + n4 ≤ 56319 then _ else _) = _
  rw [if_neg (by omega), if_neg (by omega)]
  have : ((0 * 16 + 0) * 16 + n3) * 16 + n4 = n3 * 16 + n4 := by omega
  rw [this]

theorem str_content_parse_aux : ∀ (s : List Char) (fu : Nat) (r : List Char),
    (str_content s).length + 1 ≤ fu →
    parse_json_string_aux fu (str_content s ++ '"' :: r) = some (s, r) := by
  intro s
  induction s with
  | nil =>
    intro fu r h
    cases fu with
    | zero => omega
    | succ k => rfl
  | cons c cs ih =>
    intro fu r h
    have hsc : str_content (c :: cs) = esc_char c ++ str_content cs := rfl
    rw [hsc] at h ⊢
    rw [List.append_assoc]
    by_cases h1 : c = '"'
    · subst h1
      rw [show esc_char '"' = [bslash, '"'] from rfl] at h ⊢
      simp only [List.length_append, List.length_cons, List.length_nil] at h
      cases fu with
      | zero => omega
      | succ k =>
        show (parse_json_string_aux k (str_content cs ++ '"' :: r)).map
            (fun p => ('"' :: p.1, p.2)) = some ('"' :: cs, r)
        rw [ih k r (by omega)]; rfl
    · by_cases h2 : c = bslash
      · subst h2
        rw [show esc_char bslash = [bslash, bslash] from rfl] at h ⊢
        simp only [List.length_append, List.length_cons, List.length_nil] at h
        cases fu with
        | zero => omega
        | succ k =>
          show (parse_json_string_aux k (str_content cs ++ '"' :: r)).map
              (fun p => (bslash :: p.1, p.2)) = some (bslash :: cs, r)
          rw [ih k r (by omega)]; rfl
      · by_cases h3 : c = Char.ofNat 8
        · subst h3
          rw [show esc_char (Char.ofNat 8) = [bslash, 'b'] from rfl] at h ⊢
          simp only [List.length_append, List.length_cons, List.length_nil] at h
          cases fu with
          | zero => omega
          | succ k =>
            show (parse_json_string_aux k (str_content cs ++ '"' :: r)).map
                (fun p => (Char.ofNat 8 :: p.1, p.2)) = some (Char.ofNat 8 :: cs, r)
            rw [ih k r (by omega)]; rfl
        · by_cases h4 : c = Char.ofNat 12
          · subst h4
            rw [show esc_char (Char.ofNat 12) = [bslash, 'f'] from rfl] at h ⊢
            simp only [List.length_append, List.length_cons, List.length_nil] at h
            cases fu with
            | zero => omega
            | succ k =>
              show (parse_json_string_aux k (str_content cs ++ '"' :: r)).map
                  (fun p => (Char.ofNat 12 :: p.1, p.2)) = some (Char.ofNat 12 :: cs, r)
              rw [ih k r (by omega)]; rfl
          · by_cases h5 : c = '\n'
            · subst h5
              rw [show esc_char '\n' = [bslash, 'n'] from rfl] at h ⊢
              simp only [List.length_append, List.length_cons, List.length_nil] at h
              cases fu with
              | zero => omega
              | succ k =>
                show (parse_json_string_aux k (str_content cs ++ '"' :: r)).map
                    (fun p => ('\n' :: p.1, p.2)) = some ('\n' :: cs, r)
                rw [ih k r (by omega)]; rfl
            · by_cases h6 : c = '\r'
              · subst h6
                rw [show esc_char '\r' = [bslash, 'r'] from rfl] at h ⊢
                simp only [List.length_append, List.length_cons, List.length_nil] at h
                cases fu with
                | zero => omega
                | succ k =>
                  show (parse_json_string_aux k (str_content cs ++ '"' :: r)).map
                      (fun p => ('\r' :: p.1, p.2)) = some ('\r' :: cs, r)
                  rw [ih k r (by omega)]; rfl
              · by_cases h7 : c = '\t'
                · subst h7
                  rw [show esc_char '\t' = [bslash, 't'] from rfl] at h ⊢
                  simp only [List.length_append, List.length_cons, List.length_nil] at h
                  cases fu with
                  | zero => omega
                  | succ k =>
                    show (parse_json_string_aux k (str_content cs ++ '"' :: r)).map
                        (fun p => ('\t' :: p.1, p.2)) = some ('\t' :: cs, r)
                    rw [ih k r (by omega)]; rfl
                · by_cases h8 : c.toNat < 0x20
                  · have hesc : esc_char c =
                        [bslash, 'u', '0', '0', hexDigit (c.toNat / 16),
                          hexDigit (c.toNat % 16)] := by
                      unfold esc_char
                      rw [if_neg h1, if_neg h2, if_neg h3, if_neg h4, if_neg h5,
                        if_neg h6, if_neg h7, if_pos h8]
                    rw [hesc] at h ⊢
                    simp only [List.length_append, List.length_cons, List.length_nil] at h
                    cases fu with
                    | zero => omega
                    | succ k =>
                      rw [show ([bslash, 'u', '0', '0', hexDigit (c.toNat / 16),
                            hexDigit (c.toNat % 16)] ++ (str_content cs ++ '"' :: r)) =
                          (bslash :: 'u' :: '0' :: '0' :: hexDigit (c.toNat / 16) ::
                            hexDigit (c.toNat % 16) :: (str_content cs ++ '"' :: r)) from rfl]
                      rw [parse_json_string_aux_unicode_escape
                        (hex_val_hexDigit (by omega)) (hex_val_hexDigit (by omega))
                        (by omega) k]
                      rw [ih k r (by omega)]
                      have hcc : Char.ofNat (c.toNat / 16 * 16 + c.toNat % 16) = c := by
                        rw [show c.toNat / 16 * 16 + c.toNat % 16 = c.toNat from by omega]
                        exact Char.ofNat_toNat c
                      rw [hcc]
                      rfl
                  · have hesc : esc_char c = [c] := by
                      unfold esc_char
                      rw [if_neg h1, if_neg h2, if_neg h3, if_neg h4, if_neg h5,
                        if_neg h6, if_neg h7, if_neg h8]
                    rw [hesc] at h ⊢
                    simp only [List.length_append, List.length_cons, List.length_nil] at h
                    cases fu with
                    | zero => omega
                    | succ k =>
                      rw [show ([c] ++ (str_content cs ++ '"' :: r)) =
                          (c :: (str_content cs ++ '"' :: r)) from rfl]
                      simp only [parse_json_string_aux]
                      rw [if_neg h1, if_neg h2, if_neg h8, ih k r (by omega)]
                      rfl

/-- Round trip for serialised string bodies. -/
theorem str_content_parse (s r : List Char) :
    parse_json_string (str_content s ++ '"' :: r) = some (s, r) := by
  unfold parse_json_string
  apply str_content_parse_aux
  simp only [List.length_append, List.length_cons]
  omega

/-! ## Round trip: numbers -/

theorem ne_of_digit {c : Char} (h : rust_is_ascii_digit c = true) (x : Char)
    (hx : rust_is_ascii_digit x = false) : c ≠ x := fun heq => by
  subst heq
  rw [h] at hx
  exact Bool.noConfusion hx

theorem digit_not_json_ws {c : Char} (h : rust_is_ascii_digit c = true) :
    json_ws c = false := by
  simp [rust_is_ascii_digit, json_ws] at *
  omega

theorem takeWhile_app {p : Char → Bool} {a b : List Char}
    (ha : ∀ c ∈ a, p c = true)
    (hb : ∀ c, b.head? = some c → p c = false) :
    (a ++ b).takeWhile p = a ∧ (a ++ b).dropWhile p = b := by
  constructor
  · rw [List.takeWhile_append_of_pos ha]
    cases b with
    | nil => simp
    | cons x t =>
      rw [List.takeWhile_cons, if_neg (by rw [hb x rfl]; exact Bool.noConfusion)]
      simp
  · rw [List.dropWhile_append_of_pos ha]
    cases b with
    | nil => simp
    | cons x t =>
      rw [List.dropWhile_cons, if_neg (by rw [hb x rfl]; exact Bool.noConfusion)]

theorem val_stop_head {r : List Char} (hr : val_stop r) :
    ∀ c, r.head? = some c → rust_is_ascii_digit c = false := by
  intro c hc
  cases r with
  | nil => exact absurd hc (by simp)
  | cons x t =>
    have : x = c := by simpa using hc
    subst this
    exact hr.1

theorem parse_json_num_exp_rt {ex r : List Char} (hex : exp_shape ex)
    (hr : val_stop r) (acc : List Char) :
    parse_json_num_exp acc (ex ++ r) = some (acc ++ ex, r) := by
  rcases hex with rfl | ⟨e, sg, ds, rfl, he, hsg, hds, hdig⟩
  · simp only [List.nil_append, List.append_nil]
    cases hrr : r with
    | nil => rfl
    | cons c t =>
      subst hrr
      simp only [parse_json_num_exp]
      rw [if_neg (show ¬(c = 'e' ∨ c = 'E') from fun h => h.elim hr.2.2.1 hr.2.2.2)]
  · obtain ⟨d, ds2, rfl⟩ : ∃ d ds2, ds = d :: ds2 := by
      cases ds with
      | nil => exact absurd rfl hds
      | cons d ds2 => exact ⟨d, ds2, rfl⟩
    have hd : rust_is_ascii_digit d = true := hdig d (List.mem_cons_self _ _)
    have htk := takeWhile_app (p := rust_is_ascii_digit) (a := d :: ds2) (b := r)
      (by intro c hc; exact hdig c hc) (val_stop_head hr)
    simp only [List.cons_append] at htk
    rcases hsg with rfl | rfl | rfl
    · have hno : ¬(d = '+' ∨ d = '-') := by
        rintro (rfl | rfl) <;> exact absurd hd (by decide)
      simp only [List.cons_append, List.nil_append, parse_json_num_exp,
        if_neg hno, htk.1, htk.2]
      rw [if_pos he]
      rw [if_neg (by simp)]
      simp
    · simp only [List.cons_append, List.nil_append, List.singleton_append,
        true_or, or_true, if_true, parse_json_num_exp, htk.1, htk.2]
      rw [if_pos he]
      rw [if_neg (by simp)]
      simp
    · simp only [List.cons_append, List.nil_append, List.singleton_append,
        true_or, or_true, if_true, parse_json_num_exp, htk.1, htk.2]
      rw [if_pos he]
      rw [if_neg (by simp)]
      simp

theorem exp_head_not_digit {ex r : List Char} (hex : exp_shape ex)
    (hr : val_stop r) :
    ∀ c, (ex ++ r).head? = some c → rust_is_ascii_digit c = false := by
  intro c hc
  rcases hex with rfl | ⟨e2, sg, ds3, rfl, he, hsg, hds3, hdig3⟩
  · exact val_stop_head hr c (by simpa using hc)
  · have : e2 = c := by simpa using hc
    subst this
    rcases he with rfl | rfl <;> decide

theorem parse_json_num_frac_rt {fr ex r : List Char} (hfr : frac_shape fr)
    (hex : exp_shape ex) (hr : val_stop r) (acc : List Char) :
    parse_json_num_frac acc (fr ++ ex ++ r) = some (acc ++ fr ++ ex, r) := by
  rcases hfr with rfl | ⟨ds, rfl, hds, hdig⟩
  · simp only [List.nil_append, List.append_nil]
    have hmain := parse_json_num_exp_rt hex hr acc
    cases hee : ex ++ r with
    | nil =>
      rw [hee] at hmain
      exact hmain
    | cons c t =>
      have hcd : ¬ c = '.' := by
        intro hc
        subst hc
        rcases hex with rfl | ⟨e2, sg, ds3, hx, he, hsg, hds3, hdig3⟩
        · simp only [List.nil_append] at hee
          subst hee
          exact hr.2.1 rfl
        · have he2 : e2 = '.' := by
            have h2 := congrArg List.head? hee
            rw [hx] at h2
            simpa using h2
          subst he2
          rcases he with h | h <;> exact absurd h (by decide)
      rw [hee] at hmain
      simp only [parse_json_num_frac]
      rw [if_neg hcd]
      exact hmain
  · obtain ⟨d, ds2, rfl⟩ : ∃ d ds2, ds = d :: ds2 := by
      cases ds with
      | nil => exact absurd rfl hds
      | cons d ds2 => exact ⟨d, ds2, rfl⟩
    have htk := takeWhile_app (p := rust_is_ascii_digit) (a := d :: ds2)
      (b := ex ++ r) (by intro c hc; exact hdig c hc)
      (exp_head_not_digit hex hr)
    simp only [List.cons_append] at htk
    simp only [List.cons_append, List.nil_append, List.append_assoc,
      parse_json_num_frac, htk.1, htk.2]
    rw [if_pos trivial]
    rw [if_neg (by simp)]
    rw [parse_json_num_exp_rt hex hr]
    simp

theorem pjn_cons {c : Char} (t : List Char) (hcm : ¬ c = '-') (hc0 : ¬ c = '0')
    (hcd : rust_is_ascii_digit c = true) :
    parse_json_number (c :: t) =
      parse_json_num_frac ((c :: t).takeWhile rust_is_ascii_digit)
        ((c :: t).dropWhile rust_is_ascii_digit) := by
  simp only [parse_json_number]
  rw [if_neg hcm]
  show (if c = '0' then parse_json_num_frac ([] ++ ['0']) t
        else if rust_is_ascii_digit c = true then
          parse_json_num_frac ([] ++ (c :: t).takeWhile rust_is_ascii_digit)
            ((c :: t).dropWhile rust_is_ascii_digit)
        else none) = _
  rw [if_neg hc0, if_pos hcd]
  simp

theorem pjn_minus_cons {c : Char} (t : List Char) (hc0 : ¬ c = '0')
    (hcd : rust_is_ascii_digit c = true) :
    parse_json_number ('-' :: c :: t) =
      parse_json_num_frac ('-' :: (c :: t).takeWhile rust_is_ascii_digit)
        ((c :: t).dropWhile rust_is_ascii_digit) := by
  show (if c = '0' then parse_json_num_frac (['-'] ++ ['0']) t
        else if rust_is_ascii_digit c = true then
          parse_json_num_frac (['-'] ++ (c :: t).takeWhile rust_is_ascii_digit)
            ((c :: t).dropWhile rust_is_ascii_digit)
        else none) = _
  rw [if_neg hc0, if_pos hcd]
  simp

theorem parse_json_number_rt {tok r : List Char} (h : num_shape tok)
    (hr : val_stop r) : parse_json_number (tok ++ r) = some (tok, r) := by
  obtain ⟨sgn, int, fr, ex, rfl, hsgn, hint, hfr, hex⟩ := h
  have hfx_head : ∀ c, (fr ++ (ex ++ r)).head? = some c →
      rust_is_ascii_digit c = false := by
    intro c hc
    rcases hfr with rfl | ⟨ds, rfl, hds, hdig⟩
    · exact exp_head_not_digit hex hr c (by simpa using hc)
    · have : '.' = c := by simpa using hc
      subst this
      decide
  have hfrac := parse_json_num_frac_rt hfr hex hr
  rcases hint with rfl | ⟨c, t, rfl, hcd, hc0, ht⟩
  · rcases hsgn with rfl | rfl
    · exact hfrac ['0']
    · exact hfrac (['-'] ++ ['0'])
  · have htk := takeWhile_app (p := rust_is_ascii_digit) (a := c :: t)
      (b := fr ++ (ex ++ r))
      (by
        intro x hx
        rcases List.mem_cons.mp hx with rfl | hx
        · exact hcd
        · exact ht x hx) hfx_head
    simp only [List.cons_append] at htk
    have hcm : ¬ c = '-' := ne_of_digit hcd '-' (by decide)
    rcases hsgn with rfl | rfl
    · rw [show (([] ++ (c :: t)) ++ fr ++ ex) ++ r =
          c :: (t ++ (fr ++ (ex ++ r))) from by simp]
      rw [pjn_cons (t ++ (fr ++ (ex ++ r))) hcm hc0 hcd]
      rw [htk.1, htk.2]
      rw [show fr ++ (ex ++ r) = (fr ++ ex) ++ r from
        (List.append_assoc fr ex r).symm]
      rw [hfrac (c :: t)]
      simp
    · rw [show ((['-'] ++ (c :: t)) ++ fr ++ ex) ++ r =
          '-' :: c :: (t ++ (fr ++ (ex ++ r))) from by simp]
      rw [pjn_minus_cons (t ++ (fr ++ (ex ++ r))) hc0 hcd]
      rw [htk.1, htk.2]
      rw [show fr ++ (ex ++ r) = (fr ++ ex) ++ r from
        (List.append_assoc fr ex r).symm]
      rw [hfrac ('-' :: c :: t)]
      simp

theorem pjv_quote (fuel : Nat) (t : List Char) :
    parse_json_value (fuel+1) ('"' :: t) =
      (parse_json_string t).map (fun p => (Json.str p.1, p.2)) := rfl

theorem pjv_minus (fuel : Nat) (t : List Char) :
    parse_json_value (fuel+1) ('-' :: t) =
      (parse_json_number ('-' :: t)).map (fun p => (Json.num p.1, p.2)) := rfl

theorem pjv_null (fuel : Nat) (r : List Char) :
    parse_json_value (fuel+1) ('n' :: 'u' :: 'l' :: 'l' :: r) =
      some (Json.null, r) := rfl

theorem pjv_digit (fuel : Nat) {c : Char} (t : List Char)
    (h : rust_is_ascii_digit c = true) :
    parse_json_value (fuel+1) (c :: t) =
      (parse_json_number (c :: t)).map (fun p => (Json.num p.1, p.2)) := by
  have h1 : ¬ c = 'n' := ne_of_digit h 'n' (by decide)
  have h2 : ¬ c = 't' := ne_of_digit h 't' (by decide)
  have h3 : ¬ c = 'f' := ne_of_digit h 'f' (by decide)
  have h4 : ¬ c = '"' := ne_of_digit h '"' (by decide)
  simp only [parse_json_value]
  rw [if_neg h1, if_neg h2, if_neg h3, if_neg h4, if_pos (Or.inr h)]

theorem pjv_lbrack_nonnil (fuel : Nat) {t : List Char} {c : Char} {W : List Char}
    (hskip : skip_json_ws t = c :: W) (hc : ¬ c = ']') :
    parse_json_value (fuel+1) ('[' :: t) = parse_json_elements fuel (c :: W) [] := by
  have hm : parse_json_value (fuel+1) ('[' :: t) =
      (match skip_json_ws t with
       | ']' :: r => some (Json.arr [], r)
       | _ => parse_json_elements fuel (skip_json_ws t) []) := rfl
  rw [hm, hskip]
  split
  next r heq =>
    injection heq with h1 h2
    exact absurd h1 hc
  next => rfl

theorem pjv_lbrace_nonnil (fuel : Nat) {t : List Char} {c : Char} {W : List Char}
    (hskip : skip_json_ws t = c :: W) (hc : ¬ c = '}') :
    parse_json_value (fuel+1) ('{' :: t) = parse_json_members fuel (c :: W) [] := by
  have hm : parse_json_value (fuel+1) ('{' :: t) =
      (match skip_json_ws t with
       | '}' :: r => some (Json.obj [], r)
       | _ => parse_json_members fuel (skip_json_ws t) []) := rfl
  rw [hm, hskip]
  split
  next r heq =>
    injection heq with h1 h2
    exact absurd h1 hc
  next => rfl

theorem skip_json_ws_cons {c : Char} {t : List Char} (h : json_ws c = false) :
    skip_json_ws (c :: t) = c :: t := by
  simp [skip_json_ws, List.dropWhile_cons, h]

theorem serialize_head {v : Json} (hw : WfJ v) :
    ∃ c t, serialize v = c :: t ∧ json_ws c = false ∧ c ≠ ']' ∧ c ≠ '}' := by
  cases hw with
  | null => exact ⟨'n', ['u', 'l', 'l'], rfl, by decide, by decide, by decide⟩
  | bool b =>
    cases b with
    | true => exact ⟨'t', ['r', 'u', 'e'], rfl, by decide, by decide, by decide⟩
    | false => exact ⟨'f', ['a', 'l', 's', 'e'], rfl, by decide, by decide, by decide⟩
  | str s =>
    exact ⟨'"', str_content s ++ ['"'], rfl, by decide, by decide, by decide⟩
  | arr xs =>
    exact ⟨'[', ser_elements xs ++ [']'], rfl, by decide, by decide, by decide⟩
  | obj kvs =>
    exact ⟨'{', ser_members kvs ++ ['}'], rfl, by decide, by decide, by decide⟩
  | num tok hshape =>
    obtain ⟨sgn, int, fr, ex, rfl, hsgn, hint, hfr, hex⟩ := hshape
    rcases hsgn with rfl | rfl
    · rcases hint with rfl | ⟨c, t, rfl, hcd, hc0, ht⟩
      · exact ⟨'0', fr ++ ex, by simp [serialize], by decide, by decide, by decide⟩
      · exact ⟨c, t ++ fr ++ ex, by simp [serialize],
          digit_not_json_ws hcd, ne_of_digit hcd ']' (by decide),
          ne_of_digit hcd '\x7d' (by decide)⟩
    · exact ⟨'-', int ++ fr ++ ex, by simp [serialize], by decide, by decide,
        by decide⟩

theorem ser_elements_cons (x : Json) (xs : List Json) :
    ∃ tl, ser_elements (x :: xs) = serialize x ++ tl := by
  cases xs with
  | nil => exact ⟨[], by simp [ser_elements]⟩
  | cons y t => exact ⟨',' :: ser_elements (y :: t), rfl⟩

theorem ser_members_cons (k : List Char) (v : Json)
    (kvs : List (List Char × Json)) (X : List Char) :
    ∃ W, ser_members ((k, v) :: kvs) ++ X =
      '"' :: (str_content k ++ '"' :: ':' :: W) := by
  cases kvs with
  | nil => exact ⟨serialize v ++ X, by simp [ser_members]⟩
  | cons m t =>
    exact ⟨serialize v ++ ',' :: ser_members (m :: t) ++ X, by
      simp [ser_members]⟩


theorem val_stop_cons {c : Char} {X : List Char} (h1 : rust_is_ascii_digit c = false)
    (h2 : c ≠ '.') (h3 : c ≠ 'e') (h4 : c ≠ 'E') : val_stop (c :: X) :=
  ⟨h1, h2, h3, h4⟩

theorem skip_json_ws_serialize {v : Json} (hw : WfJ v) (b : List Char) :
    skip_json_ws (serialize v ++ b) = serialize v ++ b := by
  obtain ⟨c, ct, hse, hws, _, _⟩ := serialize_head hw
  rw [hse, List.cons_append, skip_json_ws_cons hws]

theorem pjv_num (fuel : Nat) {tok r : List Char} (h : num_shape tok) :
    parse_json_value (fuel+1) (tok ++ r) =
      (parse_json_number (tok ++ r)).map (fun p => (Json.num p.1, p.2)) := by
  obtain ⟨sgn, int, fr, ex, rfl, hsgn, hint, hfr, hex⟩ := h
  rcases hsgn with rfl | rfl
  · rcases hint with rfl | ⟨c, t, rfl, hcd, hc0, ht⟩
    · rw [show ([] ++ ['0'] ++ fr ++ ex) ++ r = '0' :: (fr ++ (ex ++ r)) from by
        simp]
      rw [pjv_digit fuel _ (by decide)]
    · rw [show (([] ++ (c :: t)) ++ fr ++ ex) ++ r =
          c :: (t ++ (fr ++ (ex ++ r))) from by simp]
      rw [pjv_digit fuel _ hcd]
  · rw [show (['-'] ++ int ++ fr ++ ex) ++ r =
        '-' :: (int ++ (fr ++ (ex ++ r))) from by simp]
    rw [pjv_minus]

theorem sizeJ_le {v : Json} (hw : WfJ v) : sizeJ v ≤ (serialize v).length := by
  induction hw with
  | null => decide
  | bool b => cases b <;> decide
  | str s => simp [sizeJ, serialize]
  | num tok hshape =>
    obtain ⟨sgn, int, fr, ex, rfl, hsgn, hint, hfr, hex⟩ := hshape
    rcases hint with rfl | ⟨c, t, rfl, hcd, hc0, ht⟩ <;>
      simp [sizeJ, serialize, List.length_append] <;> omega
  | arr xs hmem ih =>
    have hL : ∀ ys : List Json, (∀ x ∈ ys, sizeJ x ≤ (serialize x).length) →
        sizeL ys ≤ 1 + (ser_elements ys).length := by
      intro ys
      induction ys with
      | nil => intro _; simp [sizeL]
      | cons a t iht =>
        intro hm
        cases t with
        | nil =>
          have := hm a (by simp)
          simp only [sizeL, ser_elements]
          omega
        | cons b t2 =>
          have h1 := hm a (by simp)
          have h2 := iht (fun x hx => hm x (List.mem_cons_of_mem _ hx))
          simp only [sizeL] at h2 ⊢
          simp only [ser_elements, List.length_append, List.length_cons]
          omega
    have := hL xs ih
    simp only [sizeJ, serialize, List.length_cons, List.length_append]
    simp at this ⊢
    omega
  | obj kvs hpw hmem ih =>
    have hM : ∀ ms : List (List Char × Json),
        (∀ kv ∈ ms, sizeJ kv.2 ≤ (serialize kv.2).length) →
        sizeM ms ≤ 1 + (ser_members ms).length := by
      intro ms
      induction ms with
      | nil => intro _; simp [sizeM]
      | cons a t iht =>
        obtain ⟨k, v⟩ := a
        intro hm
        cases t with
        | nil =>
          have h0 : sizeJ v ≤ (serialize v).length := hm (k, v) (by simp)
          simp only [sizeM, ser_members, List.length_append, List.length_cons]
          omega
        | cons b t2 =>
          have h1 : sizeJ v ≤ (serialize v).length := hm (k, v) (by simp)
          have h2 := iht (fun x hx => hm x (List.mem_cons_of_mem _ hx))
          simp only [sizeM] at h2 ⊢
          simp only [ser_members, List.length_append, List.length_cons]
          omega
    have := hM kvs ih
    simp only [sizeJ, serialize, List.length_cons, List.length_append]
    simp at this ⊢
    omega

theorem parse_serialize_rt : ∀ fuel : Nat,
    (∀ v r, WfJ v → sizeJ v ≤ fuel → val_stop r →
      parse_json_value fuel (serialize v ++ r) = some (v, r)) ∧
    (∀ xs (acc : List Json) r, (∀ x ∈ xs, WfJ x) → xs ≠ [] → sizeL xs ≤ fuel →
      parse_json_elements fuel (ser_elements xs ++ ']' :: r) acc =
        some (Json.arr (acc ++ xs), r)) ∧
    (∀ kvs (acc : List (List Char × Json)) r,
      List.Pairwise kv_lt (acc ++ kvs) → (∀ kv ∈ kvs, WfJ kv.2) →
      kvs ≠ [] → sizeM kvs ≤ fuel →
      parse_json_members fuel (ser_members kvs ++ '}' :: r) acc =
        some (Json.obj (acc ++ kvs), r)) := by
  intro fuel
  induction fuel with
  | zero =>
    refine ⟨?_, ?_, ?_⟩
    · intro v r hw hs hr
      exact absurd hs (by cases v <;> simp [sizeJ])
    · intro xs acc r hwf hne hsz
      cases xs with
      | nil => exact absurd rfl hne
      | cons x t => exact absurd hsz (by simp only [sizeL]; omega)
    · intro kvs acc r hpw hwv hne hsz
      cases kvs with
      | nil => exact absurd rfl hne
      | cons kv t =>
        obtain ⟨k, v⟩ := kv
        exact absurd hsz (by simp only [sizeM]; omega)
  | succ fuel ih =>
    obtain ⟨Pih, Qih, Rih⟩ := ih
    refine ⟨?_, ?_, ?_⟩
    · -- values
      intro v r hw hs hr
      cases hw with
      | null => rfl
      | bool b => cases b <;> rfl
      | num tok hshape =>
        show parse_json_value (fuel+1) (tok ++ r) = some (Json.num tok, r)
        rw [pjv_num fuel hshape, parse_json_number_rt hshape hr]
        rfl
      | str s =>
        rw [show serialize (Json.str s) ++ r =
          '"' :: (str_content s ++ '"' :: r) from by simp [serialize]]
        rw [pjv_quote, str_content_parse]
        rfl
      | arr xs hall =>
        cases xs with
        | nil => rfl
        | cons x xs2 =>
          simp only [sizeJ] at hs
          obtain ⟨c, ct, hse, hws, hnb, _⟩ := serialize_head (hall x (by simp))
          obtain ⟨tl, htl⟩ := ser_elements_cons x xs2
          have hE : ser_elements (x :: xs2) ++ ']' :: r =
              c :: (ct ++ (tl ++ ']' :: r)) := by
            rw [htl, hse]
            simp
          rw [show serialize (Json.arr (x :: xs2)) ++ r =
            '[' :: (ser_elements (x :: xs2) ++ ']' :: r) from by simp [serialize]]
          rw [pjv_lbrack_nonnil fuel (by rw [hE]; exact skip_json_ws_cons hws) hnb]
          rw [show c :: (ct ++ (tl ++ ']' :: r)) =
            ser_elements (x :: xs2) ++ ']' :: r from hE.symm]
          rw [Qih (x :: xs2) [] r hall (by simp) (by omega)]
          simp
      | obj kvs hpw hallv =>
        cases kvs with
        | nil => rfl
        | cons kv kvs2 =>
          obtain ⟨k, v⟩ := kv
          simp only [sizeJ] at hs
          obtain ⟨W, hW⟩ := ser_members_cons k v kvs2 ('}' :: r)
          rw [show serialize (Json.obj ((k, v) :: kvs2)) ++ r =
            '{' :: (ser_members ((k, v) :: kvs2) ++ '}' :: r) from by
            simp [serialize]]
          rw [pjv_lbrace_nonnil fuel (by rw [hW]; exact skip_json_ws_cons (by decide))
            (by decide)]
          rw [show ('"' : Char) :: (str_content k ++ '"' :: ':' :: W) =
            ser_members ((k, v) :: kvs2) ++ '}' :: r from hW.symm]
          rw [Rih ((k, v) :: kvs2) [] r (by rw [List.nil_append]; exact hpw)
            hallv (by simp) (by omega)]
          simp
    · -- array elements
      intro xs acc r hwf hne hsz
      cases xs with
      | nil => exact absurd rfl hne
      | cons x xs2 =>
        have hwx := hwf x (by simp)
        simp only [sizeL] at hsz
        cases xs2 with
        | nil =>
          have hP := Pih x (']' :: r) hwx (by omega)
            (val_stop_cons (by decide) (by decide) (by decide) (by decide))
          simp only [parse_json_elements, ser_elements]
          rw [hP]
          rfl
        | cons y ys =>
          have hP := Pih x (',' :: (ser_elements (y :: ys) ++ ']' :: r)) hwx
            (by omega)
            (val_stop_cons (by decide) (by decide) (by decide) (by decide))
          simp only [parse_json_elements, ser_elements, List.append_assoc,
            List.cons_append]
          rw [hP]
          show parse_json_elements fuel
            (skip_json_ws (ser_elements (y :: ys) ++ ']' :: r)) (acc ++ [x]) =
            some (Json.arr (acc ++ x :: y :: ys), r)
          obtain ⟨c, ct, hse, hws, _, _⟩ := serialize_head (hwf y (by simp))
          obtain ⟨tl, htl⟩ := ser_elements_cons y ys
          have hE : ser_elements (y :: ys) ++ ']' :: r =
              c :: (ct ++ (tl ++ ']' :: r)) := by
            rw [htl, hse]
            simp
          rw [hE, skip_json_ws_cons hws, ← hE]
          rw [Qih (y :: ys) (acc ++ [x]) r
            (fun z hz => hwf z (List.mem_cons_of_mem _ hz)) (by simp) (by omega)]
          simp
    · -- object members
      intro kvs acc r hpw hwv hne hsz
      cases kvs with
      | nil => exact absurd rfl hne
      | cons kv kvs2 =>
        obtain ⟨k, v⟩ := kv
        have hwvv : WfJ v := hwv (k, v) (by simp)
        simp only [sizeM] at hsz
        have hins : insert_kv k v acc = acc ++ [(k, v)] := by
          apply insert_kv_append
          intro kv hkv
          exact (List.pairwise_append.mp hpw).2.2 kv hkv (k, v) (by simp)
        cases kvs2 with
        | nil =>
          have hP := Pih v ('}' :: r) hwvv (by omega)
            (val_stop_cons (by decide) (by decide) (by decide) (by decide))
          have hskipv := skip_json_ws_serialize hwvv ('}' :: r)
          have hskip1 : skip_json_ws (':' :: (serialize v ++ '}' :: r)) =
              ':' :: (serialize v ++ '}' :: r) := skip_json_ws_cons (by decide)
          have hskip2 : skip_json_ws ('}' :: r) = '}' :: r :=
            skip_json_ws_cons (by decide)
          simp only [parse_json_members, ser_members, List.append_assoc,
            List.cons_append, str_content_parse, hskip1, hskipv, hP, hskip2,
            hins]
        | cons m kt =>
          obtain ⟨k2, v2⟩ := m
          obtain ⟨W2, hW2⟩ := ser_members_cons k2 v2 kt ('}' :: r)
          have hP := Pih v
            (',' :: (ser_members ((k2, v2) :: kt) ++ '}' :: r)) hwvv (by omega)
            (val_stop_cons (by decide) (by decide) (by decide) (by decide))
          have hskipv := skip_json_ws_serialize hwvv
            (',' :: (ser_members ((k2, v2) :: kt) ++ '}' :: r))
          have hskip1 : skip_json_ws (':' :: (serialize v ++
              ',' :: (ser_members ((k2, v2) :: kt) ++ '}' :: r))) =
              ':' :: (serialize v ++
              ',' :: (ser_members ((k2, v2) :: kt) ++ '}' :: r)) :=
            skip_json_ws_cons (by decide)
          have hskip2 : skip_json_ws
              (',' :: (ser_members ((k2, v2) :: kt) ++ '}' :: r)) =
              ',' :: (ser_members ((k2, v2) :: kt) ++ '}' :: r) :=
            skip_json_ws_cons (by decide)
          have hskip3 : skip_json_ws (ser_members ((k2, v2) :: kt) ++ '}' :: r) =
              ser_members ((k2, v2) :: kt) ++ '}' :: r := by
            rw [hW2, skip_json_ws_cons (by decide), ← hW2]
          simp only [parse_json_members, ser_members, List.append_assoc,
            List.cons_append, str_content_parse, hskip1, hskipv, hP, hskip2,
            hskip3, hins]
          rw [Rih ((k2, v2) :: kt) (acc ++ [(k, v)]) r
            (by rw [List.append_assoc, List.singleton_append]; exact hpw)
            (fun z hz => hwv z (List.mem_cons_of_mem _ hz)) (by simp) (by omega)]
          simp

theorem serde_roundtrip {v : Json} (hw : WfJ v) :
    serde_from_str (serde_to_string v) = some v := by
  obtain ⟨c, ct, hse, hws, _, _⟩ := serialize_head hw
  have hskip : skip_json_ws (serialize v) = serialize v := by
    rw [hse, skip_json_ws_cons hws]
  have hP := (parse_serialize_rt ((serialize v).length + 1)).1 v [] hw
    (by have := sizeJ_le hw; omega) (by exact trivial)
  rw [List.append_nil] at hP
  show (match parse_json_value ((serialize v).length + 1)
      (skip_json_ws (serialize v)) with
    | some (w, r) => if skip_json_ws r = [] then some w else none
    | none => none) = some v
  rw [hskip, hP]
  rfl

theorem all_digits_takeWhile (l : List Char) :
    all_digits (l.takeWhile rust_is_ascii_digit) := by
  intro c hc
  exact List.mem_takeWhile_imp hc

theorem isEmpty_false_ne_nil {l : List Char} (h : ¬ l.isEmpty = true) :
    l ≠ [] := by
  intro hnil
  subst hnil
  exact h rfl

theorem pjne_cons_cons (acc : List Char) (c c2 : Char) (t2 : List Char) :
    parse_json_num_exp acc (c :: c2 :: t2) =
      (if c = 'e' ∨ c = 'E' then
        if c2 = '+' ∨ c2 = '-' then
          if (t2.takeWhile rust_is_ascii_digit).isEmpty then none
          else some (acc ++ [c] ++ [c2] ++ t2.takeWhile rust_is_ascii_digit,
            t2.dropWhile rust_is_ascii_digit)
        else
          if ((c2 :: t2).takeWhile rust_is_ascii_digit).isEmpty then none
          else some (acc ++ [c] ++ [] ++ (c2 :: t2).takeWhile rust_is_ascii_digit,
            (c2 :: t2).dropWhile rust_is_ascii_digit)
      else some (acc, c :: c2 :: t2)) := by
  by_cases hc2 : c2 = '+' ∨ c2 = '-'
  · simp only [parse_json_num_exp, if_pos hc2]
  · simp only [parse_json_num_exp, if_neg hc2]

theorem parse_json_num_exp_shape {acc l out r : List Char}
    (h : parse_json_num_exp acc l = some (out, r)) :
    ∃ ex, out = acc ++ ex ∧ exp_shape ex := by
  cases l with
  | nil =>
    have h' : some (acc, ([] : List Char)) = some (out, r) := h
    injection h' with h2
    injection h2 with h3 h4
    exact ⟨[], by simp [h3.symm], Or.inl rfl⟩
  | cons c t =>
    cases t with
    | nil =>
      have h' : (if c = 'e' ∨ c = 'E' then none else some (acc, [c])) =
          some (out, r) := h
      split at h'
      · exact Option.noConfusion h'
      · injection h' with h2
        injection h2 with h3 h4
        exact ⟨[], by simp [h3.symm], Or.inl rfl⟩
    | cons c2 t2 =>
      rw [pjne_cons_cons] at h
      split at h
      · next hc =>
        split at h
        · next hc2 =>
          split at h
          · exact Option.noConfusion h
          · next hds =>
            injection h with h2
            injection h2 with h3 h4
            refine ⟨c :: ([c2] ++ t2.takeWhile rust_is_ascii_digit), ?_, ?_⟩
            · rw [← h3]; simp
            · exact Or.inr ⟨c, [c2], t2.takeWhile rust_is_ascii_digit, rfl, hc,
                (by rcases hc2 with rfl | rfl
                    · exact Or.inr (Or.inl rfl)
                    · exact Or.inr (Or.inr rfl)),
                isEmpty_false_ne_nil hds, all_digits_takeWhile t2⟩
        · next hc2 =>
          split at h
          · exact Option.noConfusion h
          · next hds =>
            injection h with h2
            injection h2 with h3 h4
            refine ⟨c :: ([] ++ (c2 :: t2).takeWhile rust_is_ascii_digit), ?_, ?_⟩
            · rw [← h3]; simp
            · exact Or.inr ⟨c, [], (c2 :: t2).takeWhile rust_is_ascii_digit, rfl,
                hc, Or.inl rfl, isEmpty_false_ne_nil hds, all_digits_takeWhile _⟩
      · next hc =>
        injection h with h2
        injection h2 with h3 h4
        exact ⟨[], by simp [h3.symm], Or.inl rfl⟩

theorem parse_json_num_frac_shape {acc l out r : List Char}
    (h : parse_json_num_frac acc l = some (out, r)) :
    ∃ fr ex, out = acc ++ fr ++ ex ∧ frac_shape fr ∧ exp_shape ex := by
  cases l with
  | nil =>
    have h' : some (acc, ([] : List Char)) = some (out, r) := h
    injection h' with h2
    injection h2 with h3 h4
    exact ⟨[], [], by simp [h3.symm], Or.inl rfl, Or.inl rfl⟩
  | cons c t =>
    simp only [parse_json_num_frac] at h
    split at h
    · next hc =>
      split at h
      · exact Option.noConfusion h
      · next hds =>
        obtain ⟨ex, hout, hex⟩ := parse_json_num_exp_shape h
        refine ⟨'.' :: t.takeWhile rust_is_ascii_digit, ex, ?_, ?_, hex⟩
        · rw [hout]; simp
        · exact Or.inr ⟨t.takeWhile rust_is_ascii_digit, rfl,
            isEmpty_false_ne_nil hds, all_digits_takeWhile t⟩
    · next hc =>
      obtain ⟨ex, hout, hex⟩ := parse_json_num_exp_shape h
      exact ⟨[], ex, by simp [hout], Or.inl rfl, hex⟩

theorem parse_json_number_shape {l tok r : List Char}
    (h : parse_json_number l = some (tok, r)) : num_shape tok := by
  cases l with
  | nil => exact Option.noConfusion h
  | cons c t =>
    simp only [parse_json_number] at h
    split at h
    · next c2 t2 hc =>
      split at h
      · next h0 =>
        by_cases hs : c = '-'
        · rw [if_pos hs] at h
          obtain ⟨fr, ex, hout, hfr, hex⟩ := parse_json_num_frac_shape h
          exact ⟨['-'], ['0'], fr, ex, by simpa using hout, Or.inr rfl,
            Or.inl rfl, hfr, hex⟩
        · rw [if_neg hs] at h
          obtain ⟨fr, ex, hout, hfr, hex⟩ := parse_json_num_frac_shape h
          exact ⟨[], ['0'], fr, ex, by simpa using hout, Or.inl rfl,
            Or.inl rfl, hfr, hex⟩
      · next h0 =>
        split at h
        · next hdig =>
          by_cases hs : c = '-'
          · rw [if_pos hs] at h
            obtain ⟨fr, ex, hout, hfr, hex⟩ := parse_json_num_frac_shape h
            rw [List.takeWhile_cons_of_pos hdig] at hout
            exact ⟨['-'], c2 :: List.takeWhile rust_is_ascii_digit t2, fr, ex,
              by simpa using hout, Or.inr rfl,
              Or.inr ⟨c2, List.takeWhile rust_is_ascii_digit t2, rfl, hdig, h0,
                all_digits_takeWhile t2⟩, hfr, hex⟩
          · rw [if_neg hs] at h
            obtain ⟨fr, ex, hout, hfr, hex⟩ := parse_json_num_frac_shape h
            rw [List.takeWhile_cons_of_pos hdig] at hout
            exact ⟨[], c2 :: List.takeWhile rust_is_ascii_digit t2, fr, ex,
              by simpa using hout, Or.inl rfl,
              Or.inr ⟨c2, List.takeWhile rust_is_ascii_digit t2, rfl, hdig, h0,
                all_digits_takeWhile t2⟩, hfr, hex⟩
        · exact Option.noConfusion h
    · next hc => exact Option.noConfusion h

theorem parse_wf : ∀ fuel : Nat,
    (∀ l v r, parse_json_value fuel l = some (v, r) → WfJ v) ∧
    (∀ l acc v r, (∀ x ∈ acc, WfJ x) →
      parse_json_elements fuel l acc = some (v, r) → WfJ v) ∧
    (∀ l acc v r, List.Pairwise kv_lt acc → (∀ kv ∈ acc, WfJ kv.2) →
      parse_json_members fuel l acc = some (v, r) → WfJ v) := by
  intro fuel
  induction fuel with
  | zero =>
    refine ⟨?_, ?_, ?_⟩
    · intro l v r h
      exact Option.noConfusion h
    · intro l acc v r _ h
      exact Option.noConfusion h
    · intro l acc v r _ _ h
      exact Option.noConfusion h
  | succ fuel ih =>
    obtain ⟨Pw, Qw, Rw⟩ := ih
    refine ⟨?_, ?_, ?_⟩
    · intro l v r h
      cases l with
      | nil => exact Option.noConfusion h
      | cons c t =>
        simp only [parse_json_value] at h
        split at h
        · -- c = 'n'
          split at h
          · cases h
            exact WfJ.null
          · exact Option.noConfusion h
        · split at h
          · -- c = 't'
            split at h
            · cases h
              exact WfJ.bool true
            · exact Option.noConfusion h
          · split at h
            · -- c = 'f'
              split at h
              · cases h
                exact WfJ.bool false
              · exact Option.noConfusion h
            · split at h
              · -- c = '"'
                cases hps : parse_json_string t with
                | none =>
                  rw [hps] at h
                  exact Option.noConfusion h
                | some p =>
                  rw [hps] at h
                  cases h
                  exact WfJ.str p.1
              · split at h
                · -- number
                  cases hpn : parse_json_number (c :: t) with
                  | none =>
                    rw [hpn] at h
                    exact Option.noConfusion h
                  | some p =>
                    rw [hpn] at h
                    cases h
                    exact WfJ.num p.1 (parse_json_number_shape hpn)
                · split at h
                  · -- c = '['
                    split at h
                    · cases h
                      exact WfJ.arr [] (by intro x hx; cases hx)
                    · exact Qw _ [] v r (by intro x hx; cases hx) h
                  · split at h
                    · -- c = '\x7b'
                      split at h
                      · cases h
                        exact WfJ.obj [] (by simp) (by intro kv hkv; cases hkv)
                      · exact Rw _ [] v r (by simp) (by intro kv hkv; cases hkv) h
                    · exact Option.noConfusion h
    · intro l acc v r hacc h
      simp only [parse_json_elements] at h
      split at h
      · exact Option.noConfusion h
      · next v1 r1 heq =>
        have hv1 : WfJ v1 := Pw _ _ _ heq
        split at h
        · exact Qw _ _ _ _ (by
            intro x hx
            rcases List.mem_append.mp hx with h1 | h1
            · exact hacc x h1
            · rw [List.mem_singleton.mp h1]
              exact hv1) h
        · cases h
          exact WfJ.arr _ (by
            intro x hx
            rcases List.mem_append.mp hx with h1 | h1
            · exact hacc x h1
            · rw [List.mem_singleton.mp h1]
              exact hv1)
        · exact Option.noConfusion h
    · intro l acc v r hpw hacc h
      simp only [parse_json_members] at h
      split at h
      · next t =>
        split at h
        · exact Option.noConfusion h
        · next k r1 heqs =>
          split at h
          · next r2 heqc =>
            split at h
            · exact Option.noConfusion h
            · next v1 r3 heqv =>
              have hv1 : WfJ v1 := Pw _ _ _ heqv
              split at h
              · exact Rw _ _ _ _ (insert_kv_pairwise hpw) (by
                  intro kv hkv
                  rcases mem_insert_kv hkv with rfl | h1
                  · exact hv1
                  · exact hacc kv h1) h
              · cases h
                exact WfJ.obj _ (insert_kv_pairwise hpw) (by
                  intro kv hkv
                  rcases mem_insert_kv hkv with rfl | h1
                  · exact hv1
                  · exact hacc kv h1)
              · exact Option.noConfusion h
          · exact Option.noConfusion h
      · exact Option.noConfusion h

theorem serde_from_str_wf {s : String} {v : Json}
    (h : serde_from_str s = some v) : WfJ v := by
  simp only [serde_from_str] at h
  split at h
  · next v1 r heq =>
    split at h
    · cases h
      exact (parse_wf _).1 _ _ _ heq
    · exact Option.noConfusion h
  · exact Option.noConfusion h

theorem isEmpty_true_eq_nil {α : Type} {l : List α} (h : l.isEmpty = true) :
    l = [] := by
  cases l with
  | nil => rfl
  | cons a t => exact Bool.noConfusion h

theorem mem_dropWhile {p : Char → Bool} {l : List Char} {c : Char}
    (h : c ∈ l.dropWhile p) : c ∈ l := by
  have hs := List.takeWhile_append_dropWhile (p := p) (l := l)
  rw [← hs]
  exact List.mem_append.mpr (Or.inr h)

theorem rust_trim_empty_all_ws {l : List Char}
    (h : (rust_trim l).isEmpty = true) :
    ∀ c ∈ l, rust_is_whitespace c = true := by
  have h1 : rust_trim l = [] := isEmpty_true_eq_nil h
  unfold rust_trim at h1
  have h2 : (l.dropWhile rust_is_whitespace).reverse.dropWhile
      rust_is_whitespace = [] := by
    have := congrArg List.reverse h1
    simpa using this
  have h3 := List.dropWhile_eq_nil_iff.mp h2
  intro c hc
  have hs := List.takeWhile_append_dropWhile (p := rust_is_whitespace) (l := l)
  rw [← hs] at hc
  rcases List.mem_append.mp hc with h4 | h4
  · exact List.mem_takeWhile_imp h4
  · exact h3 c (List.mem_reverse.mpr h4)

theorem parse_json_value_nil : ∀ fuel : Nat, parse_json_value fuel [] = none
  | 0 => rfl
  | _+1 => rfl

theorem parse_json_value_ws_head {c : Char} (t : List Char) (fuel : Nat)
    (hw : rust_is_whitespace c = true) : parse_json_value fuel (c :: t) = none := by
  have hd : ¬ rust_is_ascii_digit c = true := by
    intro hdg
    simp only [rust_is_whitespace, rust_is_ascii_digit, Bool.or_eq_true,
      Bool.and_eq_true, decide_eq_true_eq] at hw hdg
    omega
  have hne : ∀ d : Char, rust_is_whitespace d = false → ¬ c = d := by
    intro d hdw he
    subst he
    rw [hw] at hdw
    exact Bool.noConfusion hdw
  cases fuel with
  | zero => rfl
  | succ fuel =>
    simp only [parse_json_value]
    rw [if_neg (hne 'n' (by decide)), if_neg (hne 't' (by decide)),
      if_neg (hne 'f' (by decide)), if_neg (hne '"' (by decide)),
      if_neg (by
        rintro (he | hdg)
        · exact hne '-' (by decide) he
        · exact hd hdg),
      if_neg (hne '[' (by decide)), if_neg (hne '\x7b' (by decide))]

theorem serde_from_str_all_ws {s : String}
    (h : ∀ c ∈ s.data, rust_is_whitespace c = true) : serde_from_str s = none := by
  unfold serde_from_str
  cases hsk : skip_json_ws s.data with
  | nil => rw [parse_json_value_nil]
  | cons c t =>
    have hc : c ∈ s.data := by
      have hmem : c ∈ skip_json_ws s.data := by
        rw [hsk]
        exact List.mem_cons_self _ _
      exact mem_dropWhile hmem
    rw [parse_json_value_ws_head t _ (h c hc)]

theorem digit_not_rust_ws {c : Char} (h : rust_is_ascii_digit c = true) :
    rust_is_whitespace c = false := by
  cases hw : rust_is_whitespace c with
  | false => rfl
  | true =>
    exfalso
    simp only [rust_is_whitespace, rust_is_ascii_digit, Bool.or_eq_true,
      Bool.and_eq_true, decide_eq_true_eq] at h hw
    omega

theorem serialize_head_not_ws {v : Json} (hw : WfJ v) :
    ∃ c t, serialize v = c :: t ∧ rust_is_whitespace c = false := by
  cases hw with
  | null => exact ⟨'n', ['u', 'l', 'l'], rfl, by decide⟩
  | bool b =>
    cases b with
    | true => exact ⟨'t', ['r', 'u', 'e'], rfl, by decide⟩
    | false => exact ⟨'f', ['a', 'l', 's', 'e'], rfl, by decide⟩
  | str s => exact ⟨'"', str_content s ++ ['"'], rfl, by decide⟩
  | arr xs => exact ⟨'[', ser_elements xs ++ [']'], rfl, by decide⟩
  | obj kvs => exact ⟨'\x7b', ser_members kvs ++ ['\x7d'], rfl, by decide⟩
  | num tok hshape =>
    obtain ⟨sgn, int, fr, ex, rfl, hsgn, hint, hfr, hex⟩ := hshape
    rcases hsgn with rfl | rfl
    · rcases hint with rfl | ⟨c, t, rfl, hcd, hc0, ht⟩
      · exact ⟨'0', fr ++ ex, by simp [serialize], by decide⟩
      · exact ⟨c, t ++ fr ++ ex, by simp [serialize], digit_not_rust_ws hcd⟩
    · exact ⟨'-', int ++ fr ++ ex, by simp [serialize], by decide⟩

theorem rust_trim_cons_not_ws {c : Char} (t : List Char)
    (h : rust_is_whitespace c = false) :
    (rust_trim (c :: t)).isEmpty = false := by
  have h1 : (c :: t).dropWhile rust_is_whitespace = c :: t := by
    rw [List.dropWhile_cons, if_neg (by simp [h])]
  unfold rust_trim
  rw [h1]
  cases hdp : (c :: t).reverse.dropWhile rust_is_whitespace with
  | nil =>
    have := List.dropWhile_eq_nil_iff.mp hdp c (by simp)
    rw [h] at this
    exact Bool.noConfusion this
  | cons a b => simp

theorem repair_ok_form {fuel : Nat} {json_str : String} {options : RepairOptions}
    (hopt : options.skip_json_loads = false) {s : String}
    (h : repair_json fuel json_str options = some (Except.ok s)) :
    s = String.mk ['\x7b', '\x7d'] ∨ ∃ v, WfJ v ∧ s = serde_to_string v := by
  unfold repair_json at h
  split at h
  · injection h with h1
    injection h1 with h2
    exact Or.inl h2.symm
  · rw [hopt] at h
    have h' : (match serde_from_str json_str with
        | some value => some (Except.ok (serde_to_string value))
        | none =>
          match run_engine options fuel json_str with
          | none => none
          | some repaired =>
            match serde_from_str repaired with
            | some value => some (Except.ok (serde_to_string value))
            | none => some (Except.error JsonRepairError.serdeError)) =
        some (Except.ok s) := h
    cases hs1 : serde_from_str json_str with
    | some value =>
      rw [hs1] at h'
      have h2' : some (Except.ok (serde_to_string value)) =
          some (Except.ok s) := h'
      injection h2' with h1
      injection h1 with h2
      exact Or.inr ⟨value, serde_from_str_wf hs1, h2.symm⟩
    | none =>
      rw [hs1] at h'
      have h2' : (match run_engine options fuel json_str with
        | none => none
        | some repaired =>
          match serde_from_str repaired with
          | some value => some (Except.ok (serde_to_string value))
          | none => some (Except.error JsonRepairError.serdeError)) =
          some (Except.ok s) := h'
      cases hr : run_engine options fuel json_str with
      | none =>
        rw [hr] at h2'
        exact Option.noConfusion h2'
      | some repaired =>
        rw [hr] at h2'
        have h3' : (match serde_from_str repaired with
          | some value => some (Except.ok (serde_to_string value))
          | none => some (Except.error JsonRepairError.serdeError)) =
            some (Except.ok s) := h2'
        cases hs2 : serde_from_str repaired with
        | none =>
          rw [hs2] at h3'
          have h4' : some (Except.error JsonRepairError.serdeError) =
              some (Except.ok s) := h3'
          injection h4' with h1
          exact Except.noConfusion h1
        | some value =>
          rw [hs2] at h3'
          have h4' : some (Except.ok (serde_to_string value)) =
              some (Except.ok s) := h3'
          injection h4' with h1
          injection h1 with h2
          exact Or.inr ⟨value, serde_from_str_wf hs2, h2.symm⟩

theorem hexDigit_ascii {n : Nat} (h : n < 16) : (hexDigit n).toNat ≤ 0x7F := by
  unfold hexDigit
  split
  · rw [char_toNat_ofNat (by omega)]
    omega
  · rw [char_toNat_ofNat (by omega)]
    omega

theorem hexCharsAux_mem {x : Char} :
    ∀ fuel n : Nat, x ∈ hexCharsAux fuel n → ∃ m, m < 16 ∧ x = hexDigit m
  | 0, _, h => absurd h (by simp [hexCharsAux])
  | fuel+1, 0, h => absurd h (by simp [hexCharsAux])
  | fuel+1, n+1, h => by
    simp only [hexCharsAux] at h
    rcases List.mem_append.mp h with h1 | h1
    · exact hexCharsAux_mem fuel _ h1
    · rw [List.mem_singleton.mp h1]
      exact ⟨(n+1) % 16, Nat.mod_lt _ (by omega), rfl⟩

theorem u_escape_ascii {ch x : Char} (hx : x ∈ u_escape ch) : x.toNat ≤ 0x7F := by
  simp only [u_escape] at hx
  rcases List.mem_cons.mp hx with rfl | hx
  · decide
  rcases List.mem_cons.mp hx with rfl | hx
  · decide
  split at hx
  · rcases List.mem_append.mp hx with h1 | h1
    · rw [List.eq_of_mem_replicate h1]
      decide
    · obtain ⟨m, hm, rfl⟩ := hexCharsAux_mem _ _ h1
      exact hexDigit_ascii hm
  · obtain ⟨m, hm, rfl⟩ := hexCharsAux_mem _ _ hx
    exact hexDigit_ascii hm

/-! ## The four functional claims about `repair_json` (C2, C4, C5, C6) -/

/-- C4: when the strict parse of the input succeeds with value `v` and
`skip_json_loads` is unset, `repair_json` returns Ok with serde's compact
re-serialisation of `v`, and a strict parse of that output yields `v`
again — the fast path preserves the parsed value. -/
theorem C4_fast_path_preserves_value (fuel : Nat) (json_str : String)
    (options : RepairOptions) (hopt : options.skip_json_loads = false)
    (v : Json) (hparse : serde_from_str json_str = some v) :
    repair_json fuel json_str options = some (Except.ok (serde_to_string v)) ∧
      serde_from_str (serde_to_string v) = some v := by
  have hwf := serde_from_str_wf hparse
  constructor
  · have hne : ¬ ((rust_trim json_str.data).isEmpty = true) := by
      intro hempty
      rw [serde_from_str_all_ws (rust_trim_empty_all_ws hempty)] at hparse
      exact Option.noConfusion hparse
    unfold repair_json
    rw [if_neg hne, hopt, hparse]
    rfl
  · exact serde_roundtrip hwf

theorem C4_witness :
    repair_json 1 "1" RepairOptions.default =
        some (Except.ok (serde_to_string (Json.num ['1']))) ∧
      serde_from_str (serde_to_string (Json.num ['1'])) = some (Json.num ['1']) :=
  C4_fast_path_preserves_value 1 "1" RepairOptions.default rfl (Json.num ['1']) rfl

/-- C2 (amended): when `skip_json_loads` is unset, every Ok output of
`repair_json` passes a strict RFC 8259 parse (the output is either the
empty object or serde's re-serialisation of a parsed value, which
round-trips).  With `skip_json_loads` set the validation is skipped and
the claim fails (see the counterexample). -/
theorem C2_amended_ok_implies_strict_parse (fuel : Nat) (json_str : String)
    (options : RepairOptions) (hopt : options.skip_json_loads = false)
    (s : String) (h : repair_json fuel json_str options = some (Except.ok s)) :
    ∃ v, serde_from_str s = some v := by
  rcases repair_ok_form hopt h with rfl | ⟨v, hwv, rfl⟩
  · exact ⟨Json.obj [], rfl⟩
  · exact ⟨v, serde_roundtrip hwv⟩

theorem C2_amended_witness : ∃ v, serde_from_str "1" = some v :=
  C2_amended_ok_implies_strict_parse 1 "1" RepairOptions.default rfl "1" rfl

/-- C5 (amended): when `skip_json_loads` is unset, a successful repair is
idempotent — repairing the Ok output again (with any budget) returns the
same output.  With `skip_json_loads` set idempotence fails (see the
counterexample). -/
theorem C5_amended_idempotent_without_skip (fuel fuel2 : Nat) (json_str : String)
    (options : RepairOptions) (hopt : options.skip_json_loads = false)
    (s : String) (h : repair_json fuel json_str options = some (Except.ok s)) :
    repair_json fuel2 s options = some (Except.ok s) := by
  rcases repair_ok_form hopt h with rfl | ⟨v, hwv, rfl⟩
  · unfold repair_json
    rw [if_neg (by decide), hopt]
    rfl
  · obtain ⟨c, ct, hse, hnws⟩ := serialize_head_not_ws hwv
    have hne : ¬ ((rust_trim (serde_to_string v).data).isEmpty = true) := by
      intro hx
      rw [show (serde_to_string v).data = serialize v from rfl, hse,
        rust_trim_cons_not_ws ct hnws] at hx
      exact Bool.noConfusion hx
    unfold repair_json
    rw [if_neg hne, hopt, serde_roundtrip hwv]
    rfl

theorem C5_amended_witness :
    repair_json 1 "1" RepairOptions.default = some (Except.ok "1") :=
  C5_amended_idempotent_without_skip 1 1 "1" RepairOptions.default rfl "1" rfl

/-- C6 (amended): with `ensure_ascii` set, every character the repair
engine emits through its character-emission path is either already in the
buffer or an ASCII scalar (non-ASCII scalars become `\uXXXX` escapes built
from ASCII hex digits); the escape is a single `\u` of the full code
point, not a UTF-16 surrogate pair — e.g. the engine turns `"😀"` into
`"\u1f600"`, not `"\ud83d\ude00"`.  The fast path ignores `ensure_ascii`
(see the counterexample). -/
theorem C6_amended_engine_escape_ascii_single :
    (∀ (o : RepairOptions) (s : ParserSt) (ch : Char), o.ensure_ascii = true →
      ∀ x ∈ (emit_char o s ch).output, x ∈ s.output ∨ x.toNat ≤ 0x7F) ∧
    repair_json 30 "\"😀\""
      { skip_json_loads := true, return_objects := false,
        ensure_ascii := true, stream_stable := false } =
      some (Except.ok "\"\\u1f600\"") := by
  constructor
  · intro o s ch ho x hx
    unfold emit_char at hx
    split at hx
    · next hcond =>
      rw [ho] at hcond
      simp only [Bool.not_true, Bool.false_or, rust_is_ascii,
        decide_eq_true_eq] at hcond
      simp only [append_char] at hx
      rcases List.mem_append.mp hx with h1 | h1
      · exact Or.inl h1
      · rw [List.mem_singleton.mp h1]
        exact Or.inr hcond
    · simp only [append_str] at hx
      rcases List.mem_append.mp hx with h1 | h1
      · exact Or.inl h1
      · exact Or.inr (u_escape_ascii h1)
  · decide

theorem C6_amended_witness :
    ('u' : Char) ∈ ([] : List Char) ∨ ('u' : Char).toNat ≤ 0x7F :=
  C6_amended_engine_escape_ascii_single.1 RepairOptions.default
    ⟨[], 0, [], [ParseState.Root]⟩ (Char.ofNat 233) rfl 'u' (by decide)

end LlmJson